import Mathlib

/-!
Verification of the documentation-extraction engine (`doc_generator`).

The development shallowly embeds the token-stream extraction routines of
`src/tooling/doc_generator/src/getters.rs` and
`src/tooling/doc_generator/src/output.rs`.

Conventions of the embedding:
* Rust's `tokens[i]` indexing aborts the process when `i` is out of range;
  every scanning routine is therefore `Option`-valued, with `none` standing
  for such an abort.  Forward-scanning loops take an explicit fuel argument
  that is always instantiated, at each Rust function boundary, with
  `tokens.length + 2`; since every loop iteration advances the cursor by at
  least one position and dies on an out-of-range access, this fuel can never
  be exhausted before the out-of-range access happens, so `none` is reached
  exactly when the Rust code aborts.
* The recursion of `Output::to_output` through module contents (which can be
  unbounded because a module file may reference itself) is indexed by an
  explicit recursion depth.
* File reading plus re-lexing (`get_doc`, whose real work is done by the
  external file system and the `noirc_frontend` lexer collaborator) is
  modelled by a parameter `fs : String → Option (List Token)` mapping a file
  name to the token list of that file, `none` meaning the read or the
  tokenization failed.
-/

set_option autoImplicit false

/-- Comment style tag of the lexer collaborator (`noirc_frontend::token::DocStyle`). -/
inductive DocStyle where
  | Inner
  | Outer
  deriving DecidableEq, Repr

/-- The keyword discriminants of `noirc_frontend::token::Keyword` that the
doc generator inspects. -/
inductive Keyword where
  | Fn | Mod | Struct | Trait | Impl | Pub
  deriving DecidableEq, Repr

/-- One lexical token (`noirc_frontend::token::Token`), restricted to the
structure the doc generator dispatches on.  All remaining token kinds only
ever flow through the serializers via their display text, and are modelled by
`other` carrying that text. -/
inductive Token where
  | ident (s : String)
  | keyword (k : Keyword)
  | leftBrace
  | rightBrace
  | semicolon
  | comma
  | lineComment (s : String) (style : Option DocStyle)
  | blockComment (s : String) (style : Option DocStyle)
  | other (s : String)
  deriving DecidableEq, Repr

/-- Modelled from the spec: the display text of a token, as produced by the
lexer collaborator's `Display` implementation (the engine only reads it
through `to_string()` / `format!`).  Identifiers display as their own text,
keywords and punctuation as their source spelling, comments as their marker
followed by their text. -/
def Token.toString : Token → String
  | .ident s => s
  | .keyword .Fn => "fn"
  | .keyword .Mod => "mod"
  | .keyword .Struct => "struct"
  | .keyword .Trait => "trait"
  | .keyword .Impl => "impl"
  | .keyword .Pub => "pub"
  | .leftBrace => "\x7b"
  | .rightBrace => "\x7d"
  | .semicolon => ";"
  | .comma => ","
  | .lineComment s none => "//" ++ s
  | .lineComment s (some .Inner) => "//!" ++ s
  | .lineComment s (some .Outer) => "///" ++ s
  | .blockComment s none => "/*" ++ s ++ "*/"
  | .blockComment s (some .Inner) => "/*!" ++ s ++ "*/"
  | .blockComment s (some .Outer) => "/**" ++ s ++ "*/"
  | .other s => s

/-- Modelled from the spec: the `Function` record of the data model (declared
in the crate root, outside the extracted sources): `name`, `doc`,
`signature` text and the `is_method` flag. -/
structure Function where
  name : String
  doc : String
  signature : String
  is_method : Bool
  deriving DecidableEq, Repr

/-- Modelled from the spec: the `Implementation` record (declared in the
crate root, outside the extracted sources) identifies one `impl` block
associated with a struct or trait name. -/
structure Implementation where
  name : String
  deriving DecidableEq, Repr

/-- The `Type` enum of `output.rs` (renamed: `Type` is reserved in Lean). -/
inductive Ty where
  | Function | Module | Struct | Trait | OuterComment
  deriving DecidableEq, Repr

mutual
/-- The `Info` enum of `output.rs` (including its `Blanc` variant, spelled
as in the source). -/
inductive Info where
  | Function (signature : String)
  | Module (content : List Output)
  | Struct (signature : String) (additional_doc : String) (implementations : List Implementation)
  | Trait (signature : String) (additional_doc : String) (required_methods : List Function)
      (provided_methods : List Function) (implementations : List Implementation)
  | Blanc

/-- The `Output` struct of `output.rs`: one extracted documentation node. -/
inductive Output where
  | mk (ty : Ty) (name : String) (doc : String) (information : Info)
end

/-- Modelled from the spec: the error taxonomy `crate::DocError` (declared in
the crate root, outside the extracted sources); only the variants reachable
from the extraction routines are listed. -/
inductive DocError where
  | FileEditError | GetTokensError | GetDocError
  deriving DecidableEq, Repr

/-- Result type of the embedded extraction: `none` models an abort
(out-of-range indexing in the Rust code), `some (.error e)` a surfaced
`DocError`, `some (.ok nodes)` a successful extraction. -/
abbrev Res := Option (Except DocError (List Output))

/-- Modelled from the spec: the Implementation Linker
(`Implementation::get_implementations`, declared outside the extracted
sources) scans the entire token stream for implementation blocks naming the
given type or trait, collecting one record per match in source order. -/
def get_implementations (tokens : List Token) (name : String) : List Implementation :=
  (List.range tokens.length).filterMap fun j =>
    match (tokens[j]? : Option Token), (tokens[j+1]? : Option Token) with
    | some (.keyword .Impl), some (.ident n) => if n = name then some ⟨name⟩ else none
    | _, _ => none

/-! ## Scope Scanner (`skip_impl_block`, getters.rs lines 80-113) -/

/-- First phase of `skip_impl_block`: advance until just past the first
scope-open token (`while brace_counter != 1`). -/
def findBrace (tokens : List Token) : Nat → Nat → Option Nat
  | 0, _ => none
  | f+1, i =>
    match tokens[i]? with
    | none => none
    | some .leftBrace => some (i+1)
    | some _ => findBrace tokens f (i+1)

/-- Second phase of `skip_impl_block`: advance while the signed depth counter
is non-zero, incrementing on scope-open and decrementing on scope-close
(`while brace_counter != 0`). -/
def skipLoop (tokens : List Token) : Nat → Nat → Nat → Option Nat
  | 0, _, _ => none
  | f+1, i, d =>
    if d = 0 then some i
    else
      match tokens[i]? with
      | none => none
      | some .leftBrace => skipLoop tokens f (i+1) (d+1)
      | some .rightBrace => skipLoop tokens f (i+1) (d-1)
      | some _ => skipLoop tokens f (i+1) (d)

/-- `skip_impl_block(tokens, index)`: number of tokens to skip so that the
cursor lands one past the balanced brace block that starts at or after
`index`. -/
def skip_impl_block (tokens : List Token) (index : Nat) : Option Nat :=
  match findBrace tokens (tokens.length + 2) index with
  | none => none
  | some j =>
    match skipLoop tokens (tokens.length + 2) j 1 with
    | none => none
    | some k => some (k - index - 1)

/-! ## Signature Builder: functions (`fn_signature`, getters.rs lines 115-131) -/

/-- Loop of `fn_signature`: serialize tokens, space separated, until a
scope-open or statement terminator. -/
def fnSigLoop (tokens : List Token) : Nat → Nat → String → Option String
  | 0, _, _ => none
  | f+1, i, res =>
    match tokens[i]? with
    | none => none
    | some .leftBrace => some res
    | some .semicolon => some res
    | some t => fnSigLoop tokens f (i+1) (res ++ t.toString ++ " ")

/-- `fn_signature(tokens, index)`. -/
def fn_signature (tokens : List Token) (index : Nat) : Option String :=
  fnSigLoop tokens (tokens.length + 2) index ""

/-! ## Signature Builder: structs (`struct_signature`, getters.rs lines 139-199) -/

/-- Innermost loop of `struct_signature`: emit the tokens of one
`pub`-qualified field verbatim until the next separator (consumed, with a
newline unless the very next token closes the scope) or scope-close (not
consumed). -/
def pubFieldLoop (tokens : List Token) : Nat → Nat → String → Option (String × Nat)
  | 0, _, _ => none
  | f+1, i, res =>
    match tokens[i]? with
    | some .comma =>
      match tokens[i+1]? with
      | none => none
      | some .rightBrace => some (res ++ ",", i+1)
      | some _ => some (res ++ ",\n", i+1)
    | some .rightBrace => some (res, i)
    | some t => pubFieldLoop tokens f (i+1) (res ++ t.toString ++ " ")
    | none => none

/-- Body loop of `struct_signature`: skip tokens until a `pub` keyword (then
emit that field) or the scope-close (then emit the private-fields placeholder
when no public field was seen). -/
def structBodyLoop (tokens : List Token) : Nat → Nat → Bool → String → Option String
  | 0, _, _, _ => none
  | f+1, i, is_private, res =>
    match tokens[i]? with
    | none => none
    | some .rightBrace =>
      some (res ++ (if is_private then "/* private fields */" else "") ++ "\n\x7d")
    | some (.keyword .Pub) =>
      match pubFieldLoop tokens (tokens.length + 2) i res with
      | none => none
      | some (res', i') => structBodyLoop tokens f i' false res'
    | some _ => structBodyLoop tokens f (i+1) is_private res

/-- Header loop of `struct_signature`: serialize tokens until the scope-open
of the struct body. -/
def structHeaderLoop (tokens : List Token) : Nat → Nat → String → Option (String × Nat)
  | 0, _, _ => none
  | f+1, i, res =>
    match tokens[i]? with
    | none => none
    | some .leftBrace => some (res, i)
    | some t => structHeaderLoop tokens f (i+1) (res ++ t.toString ++ " ")

/-- `struct_signature(tokens, index)`. -/
def struct_signature (tokens : List Token) (index : Nat) : Option String :=
  match structHeaderLoop tokens (tokens.length + 2) index "" with
  | none => none
  | some (res, i) => structBodyLoop tokens (tokens.length + 2) i true (res ++ "\x7b\n")

/-! ## Comment Associator (`doc` / `additional_doc` / `outer_doc`,
getters.rs lines 306-446) -/

/-- Backward run of `doc`, seeded case: positions `p-1, p-2, …, 0` are
prepended while they hold comments of the undecorated style; the run stops at
the first non-matching token. -/
def docNoneRun (tokens : List Token) : Nat → String → String
  | 0, res => res
  | p+1, res =>
    match tokens.getD p .semicolon with
    | .lineComment d none => docNoneRun tokens p (d ++ res)
    | .blockComment d none => docNoneRun tokens p (d ++ res)
    | _ => res

/-- Backward search of `doc`, unseeded case: outer-doc comments are
prepended, a declaration-introducing keyword stops the search, anything else
is stepped over. -/
def docOuterRun (tokens : List Token) : Nat → String → String
  | 0, res => res
  | p+1, res =>
    match tokens.getD p .semicolon with
    | .lineComment d (some .Outer) => docOuterRun tokens p (d ++ res)
    | .blockComment d (some .Outer) => docOuterRun tokens p (d ++ res)
    | .keyword .Fn => res
    | .keyword .Mod => res
    | .keyword .Struct => res
    | .keyword .Trait => res
    | .keyword .Impl => res
    | _ => docOuterRun tokens p res

/-- `doc(tokens, index)`: the backward comment association of getters.rs
lines 364-413.  `none` models the abort on an out-of-range `index - 1`. -/
def doc (tokens : List Token) (index : Nat) : Option String :=
  if index = 0 then some "" else
    match tokens[index - 1]? with
    | none => none
    | some (.lineComment dc _) => some (docNoneRun tokens (index - 1) dc)
    | some (.blockComment dc _) => some (docNoneRun tokens (index - 1) dc)
    | some _ => some (docOuterRun tokens (index - 1) "")

/-- Backward run of `additional_doc`, seeded case: inner-doc comments of
either kind are prepended; the run stops at the first non-matching token. -/
def adocInnerRun (tokens : List Token) : Nat → String → String
  | 0, res => res
  | p+1, res =>
    match tokens.getD p .semicolon with
    | .lineComment d (some .Inner) => adocInnerRun tokens p (d ++ res)
    | .blockComment d (some .Inner) => adocInnerRun tokens p (d ++ res)
    | _ => res

/-- Backward search of `additional_doc`, unseeded case: inner-doc line
comments are prepended, a declaration-introducing keyword stops the search,
anything else is stepped over. -/
def adocSearchRun (tokens : List Token) : Nat → String → String
  | 0, res => res
  | p+1, res =>
    match tokens.getD p .semicolon with
    | .lineComment d (some .Inner) => adocSearchRun tokens p (d ++ res)
    | .keyword .Fn => res
    | .keyword .Mod => res
    | .keyword .Struct => res
    | .keyword .Trait => res
    | .keyword .Impl => res
    | _ => adocSearchRun tokens p res

/-- `additional_doc(tokens, index)` (getters.rs lines 306-356). -/
def additional_doc (tokens : List Token) (index : Nat) : Option String :=
  if index = 0 then some "" else
    match tokens[index - 1]? with
    | none => none
    | some (.lineComment dc (some .Inner)) => some (adocInnerRun tokens (index - 1) dc)
    | some (.blockComment dc (some .Inner)) => some (adocInnerRun tokens (index - 1) dc)
    | some _ => some (adocSearchRun tokens (index - 1) "")

/-- Everything of a string after its first space character; the empty string
when it has no space (Rust: `find(' ')` followed by `split_off(pos + 1)`,
else `clear()`). -/
def dropThroughSpace : List Char → String
  | [] => ""
  | c :: cs => if c = ' ' then ⟨cs⟩ else dropThroughSpace cs

/-- Forward loop of `outer_doc`: greedily merge the texts of subsequent
inner-doc comments, aborting when the look-ahead position leaves the
stream. -/
def outerDocRun (tokens : List Token) : Nat → Nat → String → Option (String × Nat)
  | 0, _, _ => none
  | f+1, i, res =>
    match tokens[i+1]? with
    | none => none
    | some (.lineComment d (some .Inner)) => outerDocRun tokens f (i+1) (res ++ d)
    | some (.blockComment d (some .Inner)) => outerDocRun tokens f (i+1) (res ++ d)
    | some _ => some (res, i)

/-- `outer_doc(tokens, index)` (getters.rs lines 422-446): merge the leading
comment's display text with following inner-doc comment texts, strip the
comment marker up to the first space, and report the index of the last token
consumed. -/
def outer_doc (tokens : List Token) (index : Nat) : Option (String × Nat) :=
  match tokens[index]? with
  | none => none
  | some t =>
    match outerDocRun tokens (tokens.length + 2) index t.toString with
    | none => none
    | some (res, i) => some (dropThroughSpace res.data, i)

/-! ## Signature Builder: traits (`trait_info`, getters.rs lines 207-297) -/

/-- Body-skip loop of a provided trait method: after each cursor increment
the look-ahead token updates the depth counter, until the counter returns to
zero (`while brace_counter != 0 { i += 1; … }`). -/
def provSkip (tokens : List Token) : Nat → Nat → Nat → Option Nat
  | 0, _, _ => none
  | f+1, i, d =>
    if d = 0 then some i
    else
      match tokens[i+2]? with
      | none => none
      | some .leftBrace => provSkip tokens f (i+1) (d+1)
      | some .rightBrace => provSkip tokens f (i+1) (d-1)
      | some _ => provSkip tokens f (i+1) (d)

/-- Per-method loop of `trait_info`: serialize the method declaration until
its terminator (required, emits `;`) or its body's scope-open (provided,
emits the body-elided placeholder and skips the body).  Returns the extended
signature text, the new cursor and `true` for a required method. -/
def methodLoop (tokens : List Token) : Nat → Nat → String → Option (String × Nat × Bool)
  | 0, _, _ => none
  | f+1, i, sign =>
    match tokens[i+1]? with
    | none => none
    | some .semicolon => some (sign ++ ";\n", i, true)
    | some .leftBrace =>
      match provSkip tokens (tokens.length + 2) i 1 with
      | none => none
      | some i2 => some (sign ++ "\x7b ... \x7d\n", i2 + 1, false)
    | some t => methodLoop tokens f (i+1) (sign ++ t.toString ++ " ")

/-- Body loop of `trait_info`: dispatch on the look-ahead token; a
scope-close ends the trait body, a function keyword starts a method
declaration (a missing method name ends the scan where it stands, as the
Rust `break` does), anything else is stepped over without being
serialized. -/
def traitBodyLoop (tokens : List Token) :
    Nat → Nat → String → List Function → List Function →
    Option (String × List Function × List Function)
  | 0, _, _, _, _ => none
  | f+1, i, sign, required_methods, provided_methods =>
    match tokens[i+1]? with
    | none => none
    | some .rightBrace => some (sign ++ "\x7d", required_methods, provided_methods)
    | some (.keyword .Fn) =>
      match tokens[i+2]? with
      | none => none
      | some (.ident name) =>
        match doc tokens (i+1), fn_signature tokens (i+1) with
        | some d, some fn_sign =>
          match methodLoop tokens (tokens.length + 2) i sign with
          | none => none
          | some (sign', i', isRequired) =>
            if isRequired then
              traitBodyLoop tokens f i' sign'
                (required_methods ++ [⟨name, d, fn_sign, true⟩]) provided_methods
            else
              traitBodyLoop tokens f i' sign'
                required_methods (provided_methods ++ [⟨name, d, fn_sign, true⟩])
        | _, _ => none
      | some _ => some (sign, required_methods, provided_methods)
    | some _ => traitBodyLoop tokens f (i+1) sign required_methods provided_methods

/-- Header loop of `trait_info`: serialize the look-ahead tokens until the
scope-open of the trait body. -/
def traitHeaderLoop (tokens : List Token) : Nat → Nat → String → Option (String × Nat)
  | 0, _, _ => none
  | f+1, i, sign =>
    match tokens[i+1]? with
    | none => none
    | some .leftBrace => some (sign, i)
    | some t => traitHeaderLoop tokens f (i+1) (sign ++ t.toString ++ " ")

/-- `trait_info(tokens, index)`: the trait's signature text, its required
methods and its provided methods. -/
def trait_info (tokens : List Token) (index : Nat) :
    Option (String × List Function × List Function) :=
  match traitHeaderLoop tokens (tokens.length + 2) index "" with
  | none => none
  | some (sign, i) => traitBodyLoop tokens (tokens.length + 2) i (sign ++ "\x7b\n") [] []

/-! ## Module Resolver (`get_module_content`, getters.rs lines 22-72) -/

/-- Which of the two module termination styles `get_module_content` found. -/
inductive ModBranch where
  | file (filename : String)
  | inline (content : List Token)
  deriving DecidableEq, Repr

/-- Capture loop of `get_module_content`'s inline branch: every token is
appended, scope-opens and scope-closes move the depth counter, and the loop
ends once the counter returns to zero — after appending the final matching
scope-close. -/
def capLoop (tokens : List Token) : Nat → Nat → Nat → List Token → Option (List Token × Nat)
  | 0, _, _, _ => none
  | f+1, i, d, acc =>
    if d = 0 then some (acc, i)
    else
      match tokens[i]? with
      | none => none
      | some .leftBrace => capLoop tokens f (i+1) (d+1) (acc ++ [.leftBrace])
      | some .rightBrace => capLoop tokens f (i+1) (d-1) (acc ++ [.rightBrace])
      | some t => capLoop tokens f (i+1) (d) (acc ++ [t])

/-- Scan of `get_module_content`: advance until a statement terminator (the
file branch, whose name is the display text of the token right before the
terminator, the abort on `index = 0` modelling the Rust underflow) or a
scope-open (the inline branch, capturing the balanced body). -/
def mod_scan (tokens : List Token) : Nat → Nat → Option ModBranch
  | 0, _ => none
  | f+1, i =>
    match tokens[i]? with
    | none => none
    | some .semicolon =>
      if i = 0 then none
      else some (.file ("input_files/" ++ (tokens.getD (i-1) .semicolon).toString ++ ".nr"))
    | some .leftBrace =>
      match capLoop tokens (tokens.length + 2) (i+1) 1 [] with
      | none => none
      | some (content, _) => some (.inline content)
    | some _ => mod_scan tokens f (i+1)

/-- `get_module_content(tokens, index)`, parameterized by the file-system
collaborator `fs` (read + tokenize) and by the recursive tree-building run
`run` (instantiated with `to_output` at one lower recursion depth).  A failed
read or tokenization is mapped to `DocError::GetDocError`. -/
def get_module_content (fs : String → Option (List Token)) (run : List Token → Res)
    (tokens : List Token) (index : Nat) : Res :=
  match mod_scan tokens (tokens.length + 2) index with
  | none => none
  | some (.file name) =>
    match fs name with
    | none => some (.error .GetDocError)
    | some ts => run ts
  | some (.inline content) => run content

/-! ## Tree Builder (`Output::to_output`, output.rs lines 130-256) -/

/-- The single forward pass of `Output::to_output` over `tokens`, cursor `i`,
with the pending skip count, the first/stand-alone-comment flag and the
accumulated node list.  `mc` is the module-content resolver (instantiated
with `get_module_content` at one lower recursion depth). -/
def to_output_go (mc : List Token → Nat → Res) :
    Nat → List Token → Nat → Nat → Bool → List Output → Res
  | 0, _, _, _, _, _ => none
  | fuel+1, tokens, i, skip, is_first, acc =>
    match tokens[i]? with
    | none => some (.ok acc)
    | some tk =>
      if skip > 0 then to_output_go mc fuel tokens (i+1) (skip-1) is_first acc
      else
        match tk with
        | .keyword .Fn =>
          match tokens[i+1]? with
          | none => none
          | some (.ident name) =>
            match doc tokens i, fn_signature tokens i with
            | some d, some sign =>
              to_output_go mc fuel tokens (i+1) skip is_first
                (acc ++ [.mk .Function name d (.Function sign)])
            | _, _ => none
          | some _ => to_output_go mc fuel tokens (i+1) skip is_first acc
        | .keyword .Struct =>
          match tokens[i+1]? with
          | none => none
          | some (.ident name) =>
            match doc tokens i, struct_signature tokens i, additional_doc tokens i with
            | some d, some sign, some ad =>
              to_output_go mc fuel tokens (i+1) skip is_first
                (acc ++ [.mk .Struct name d (.Struct sign ad (get_implementations tokens name))])
            | _, _, _ => none
          | some _ => to_output_go mc fuel tokens (i+1) skip is_first acc
        | .keyword .Trait =>
          match skip_impl_block tokens i with
          | none => none
          | some n =>
            match tokens[i+1]? with
            | none => none
            | some (.ident name) =>
              match doc tokens i, additional_doc tokens i, trait_info tokens i with
              | some d, some ad, some (sign, required_methods, provided_methods) =>
                to_output_go mc fuel tokens (i+1) n is_first
                  (acc ++ [.mk .Trait name d
                    (.Trait sign ad required_methods provided_methods
                      (get_implementations tokens name))])
              | _, _, _ => none
            | some _ => to_output_go mc fuel tokens (i+1) n is_first acc
        | .keyword .Mod =>
          match tokens[i+2]? with
          | none => none
          | some t2 =>
            match (if t2 = Token.leftBrace then skip_impl_block tokens i else some skip) with
            | none => none
            | some n =>
              match tokens[i+1]? with
              | none => none
              | some (.ident name) =>
                match doc tokens i with
                | none => none
                | some d =>
                  match mc tokens i with
                  | none => none
                  | some (.error e) => some (.error e)
                  | some (.ok content) =>
                    to_output_go mc fuel tokens (i+1) n is_first
                      (acc ++ [.mk .Module name d (.Module content)])
              | some _ => to_output_go mc fuel tokens (i+1) n is_first acc
        | .lineComment _ (some .Inner) | .blockComment _ (some .Inner) =>
          match outer_doc tokens i with
          | none => none
          | some (txt, j) =>
            let d := if is_first then txt else ""
            let first' := if is_first then false else (if j = i then true else false)
            to_output_go mc fuel tokens (i+1) skip first'
              (acc ++ [.mk .OuterComment "" d .Blanc])
        | .keyword .Impl =>
          match skip_impl_block tokens i with
          | none => none
          | some n => to_output_go mc fuel tokens (i+1) n is_first acc
        | _ => to_output_go mc fuel tokens (i+1) skip is_first acc

/-- `Output::to_output(input)`, at recursion depth `depth` through module
contents.  Modules resolve their content via `get_module_content`, which in
turn re-runs the tree builder at depth one lower. -/
def to_output (fs : String → Option (List Token)) : Nat → List Token → Res
  | 0, _ => none
  | depth+1, tokens =>
    to_output_go (fun tks i => get_module_content fs (to_output fs depth) tks i)
      (tokens.length + 2) tokens 0 0 true []

/-- A file-system collaborator with no readable files. -/
def fsEmpty : String → Option (List Token) := fun _ => none

/-! ## Specification-side descriptions used by the theorem statements -/

/-- The space-separated serialization of a token list, exactly as the
signature loops emit it (each token's display text followed by one space). -/
def tokensText : List Token → String
  | [] => ""
  | t :: ts => t.toString ++ " " ++ tokensText ts

/-- The text of a comment token (empty for non-comments). -/
def commentText : Token → String
  | .lineComment s _ => s
  | .blockComment s _ => s
  | _ => ""

/-- Concatenation, in source order, of the texts of a run of comment
tokens. -/
def runText : List Token → String
  | [] => ""
  | t :: ts => commentText t ++ runText ts

/-- A comment token of the undecorated style (no doc-style tag). -/
def IsUndecoratedComment (t : Token) : Prop :=
  (∃ s, t = Token.lineComment s none) ∨ (∃ s, t = Token.blockComment s none)

/-- A comment token of the inner-doc style (the kind the Tree Builder's
comment case dispatches on and `outer_doc`'s forward loop merges). -/
def IsInnerComment (t : Token) : Prop :=
  (∃ s, t = Token.lineComment s (some DocStyle.Inner)) ∨
    (∃ s, t = Token.blockComment s (some DocStyle.Inner))

/-- How one method declaration inside a trait body ends: at a statement
terminator (required method) or at a scope-open followed by a balanced body
(provided method). -/
inductive MethodEnd where
  | required
  | provided (body : List Token)

/-- Description of one method declaration inside a trait body: its name, the
signature tokens after `fn name`, and its ending. -/
structure MethodDecl where
  name : String
  sig : List Token
  ending : MethodEnd

/-- The token encoding of one trait-body method declaration. -/
def encodeMethod (m : MethodDecl) : List Token :=
  Token.keyword Keyword.Fn :: Token.ident m.name :: m.sig ++
    (match m.ending with
     | .required => [Token.semicolon]
     | .provided b => Token.leftBrace :: b ++ [Token.rightBrace])

/-- The token encoding of a whole trait body (without the enclosing braces). -/
def encodeMethods (ms : List MethodDecl) : List Token :=
  (ms.map encodeMethod).flatten

/-- Whether a method declaration is a required one (ends at a terminator). -/
def MethodDecl.isRequired (m : MethodDecl) : Bool :=
  match m.ending with
  | .required => true
  | .provided _ => false

/-- The signature text `fn_signature` reconstructs for one method. -/
def methodSigText (m : MethodDecl) : String :=
  tokensText (Token.keyword Keyword.Fn :: Token.ident m.name :: m.sig)

/-- The trait-signature text contributed by the method declarations: each
method's signature followed by `;` for a required method and by the
body-elided placeholder for a provided one. -/
def methodsSigText : List MethodDecl → String
  | [] => ""
  | m :: ms =>
    methodSigText m ++ (if m.isRequired then ";\n" else "\x7b ... \x7d\n") ++ methodsSigText ms

/-- The observable part of a `Function` record the trait claims talk about:
name, signature text and the method flag. -/
def functionView (f : Function) : String × String × Bool :=
  (f.name, f.signature, f.is_method)

/-- The expected view of the `Function` record built for a method
declaration. -/
def methodView (m : MethodDecl) : String × String × Bool :=
  (m.name, methodSigText m, true)

/-- One struct-body field for the struct-signature claim: a public flag and
the field's tokens (name, colon, type, …). -/
abbrev SField := Bool × List Token

/-- The token encoding of one field (a `pub` keyword is prepended to a public
field). -/
def fieldTokens (f : SField) : List Token :=
  if f.1 then Token.keyword Keyword.Pub :: f.2 else f.2

/-- The token encoding of a struct body: the fields separated by commas,
without a trailing comma. -/
def fieldsTokens : List SField → List Token
  | [] => []
  | [f] => fieldTokens f
  | f :: fs => fieldTokens f ++ Token.comma :: fieldsTokens fs

/-- The field text `struct_signature` emits: public fields verbatim (with
their separator and a newline when more fields follow), private fields not at
all. -/
def renderFields : List SField → String
  | [] => ""
  | [f] => if f.1 then tokensText (Token.keyword Keyword.Pub :: f.2) else ""
  | f :: fs =>
    (if f.1 then tokensText (Token.keyword Keyword.Pub :: f.2) ++ ",\n" else "") ++
      renderFields fs

/-- No field of the struct body is `pub`-qualified. -/
def noPub (fields : List SField) : Bool :=
  fields.all fun f => !f.1

/-! ## Sanity evaluations (spec section 8 scenarios) -/

example :
    trait_info
      [.keyword .Trait, .ident "Shape", .leftBrace,
        .keyword .Fn, .ident "area", .other "(", .other ")", .semicolon,
        .keyword .Fn, .ident "name", .other "(", .other ")", .leftBrace, .other "s", .rightBrace,
        .rightBrace] 0 =
    some ("Shape \x7b\nfn area ( ) ;\nfn name ( ) \x7b ... \x7d\n\x7d",
      [⟨"area", "", "fn area ( ) ", true⟩],
      [⟨"name", "", "fn name ( ) ", true⟩]) := by rfl

example :
    struct_signature
      [.keyword .Struct, .ident "Point", .leftBrace,
        .keyword .Pub, .ident "x", .other ":", .ident "i32", .comma,
        .ident "y", .other ":", .ident "i32", .rightBrace] 0 =
    some ("struct Point \x7b\npub x : i32 ,\n\n\x7d") := by rfl

example :
    struct_signature
      [.keyword .Struct, .ident "P", .leftBrace, .ident "y", .rightBrace] 0 =
    some ("struct P \x7b\n/* private fields */\n\x7d") := by rfl

example :
    to_output fsEmpty 1 [.keyword .Fn, .ident "f", .other "(", .other ")", .leftBrace, .rightBrace] =
    some (.ok [.mk .Function "f" "" (.Function "fn f ( ) ")]) := by rfl

example : to_output fsEmpty 1 [.keyword .Fn] = none := by rfl

example :
    to_output fsEmpty 1
      [.lineComment " A" (some .Inner), .lineComment " B" (some .Inner), .semicolon] =
    some (.ok [.mk .OuterComment "" "A B" .Blanc, .mk .OuterComment "" "" .Blanc]) := by rfl

/-! ## List-access infrastructure -/

theorem getElem?_of_drop_cons {tokens : List Token} {i : Nat} {x : Token} {xs : List Token}
    (h : tokens.drop i = x :: xs) : tokens[i]? = some x := by
  have h0 := List.getElem?_drop tokens i 0
  rw [h] at h0
  simpa using h0.symm

theorem drop_succ_of_drop_cons {tokens : List Token} {i : Nat} {x : Token} {xs : List Token}
    (h : tokens.drop i = x :: xs) : tokens.drop (i+1) = xs := by
  have hd : (tokens.drop i).drop 1 = tokens.drop (i + 1) := List.drop_drop 1 i tokens
  rw [h] at hd
  simpa using hd.symm

theorem getElem?_none_of_drop_nil {tokens : List Token} {i : Nat}
    (h : tokens.drop i = []) : tokens[i]? = none := by
  have h0 := List.getElem?_drop tokens i 0
  rw [h] at h0
  simpa using h0.symm

theorem drop_add_of_drop_append {tokens : List Token} :
    ∀ (A : List Token) {i : Nat} {B : List Token},
      tokens.drop i = A ++ B → tokens.drop (i + A.length) = B := by
  intro A
  induction A with
  | nil => intro i B h; simpa using h
  | cons a t ih =>
    intro i B h
    have h1 : tokens.drop (i+1) = t ++ B := drop_succ_of_drop_cons h
    have h2 := ih h1
    have : i + 1 + t.length = i + (a :: t).length := by simp; omega
    rwa [this] at h2

theorem drop_length_eq {tokens : List Token} {i : Nat} {A : List Token}
    (h : tokens.drop i = A) : tokens.length - i = A.length := by
  have := congrArg List.length h
  simpa using this

/-! ## Brace balance counters -/

/-- Number of scope-open tokens in a list. -/
def opens : List Token → Nat
  | [] => 0
  | t :: ts => (if t = Token.leftBrace then 1 else 0) + opens ts

/-- Number of scope-close tokens in a list. -/
def closes : List Token → Nat
  | [] => 0
  | t :: ts => (if t = Token.rightBrace then 1 else 0) + closes ts

theorem opens_nil : opens [] = 0 := rfl

theorem closes_nil : closes [] = 0 := rfl

theorem opens_cons (t : Token) (ts : List Token) :
    opens (t :: ts) = (if t = Token.leftBrace then 1 else 0) + opens ts := rfl

theorem closes_cons (t : Token) (ts : List Token) :
    closes (t :: ts) = (if t = Token.rightBrace then 1 else 0) + closes ts := rfl

/-! ## Scope Scanner lemmas -/

theorem skipLoop_step_other {tokens : List Token} {f i d : Nat} {t : Token}
    (hi : tokens[i]? = some t) (h1 : t ≠ Token.leftBrace) (h2 : t ≠ Token.rightBrace)
    (hd : d ≠ 0) :
    skipLoop tokens (f+1) i d = skipLoop tokens f (i+1) d := by
  cases t <;> simp_all [skipLoop]

/-- The depth counter never returns to zero: the scan aborts at the end of
the stream (for every fuel). -/
theorem skipLoop_never_closes {tokens : List Token} :
    ∀ (f : Nat) (q : List Token) (i d : Nat), tokens.drop i = q →
      (∀ n, closes (q.take n) < d + opens (q.take n)) →
      skipLoop tokens f i d = none := by
  intro f
  induction f with
  | zero => intro q i d _ _; rfl
  | succ f ih =>
    intro q i d hq hlt
    have hd : d ≠ 0 := by
      have := hlt 0
      simp [closes_nil, opens_nil] at this
      omega
    cases q with
    | nil =>
      have hi : tokens[i]? = none := getElem?_none_of_drop_nil hq
      simp [skipLoop, hd, hi]
    | cons t q' =>
      have hi : tokens[i]? = some t := getElem?_of_drop_cons hq
      have hq' : tokens.drop (i+1) = q' := drop_succ_of_drop_cons hq
      by_cases hl : t = Token.leftBrace
      · subst hl
        have hlt' : ∀ n, closes (q'.take n) < (d+1) + opens (q'.take n) := by
          intro n
          have := hlt (n+1)
          simp [List.take_succ_cons, closes_cons, opens_cons] at this
          omega
        simp only [skipLoop, hd, if_neg hd, hi]
        exact ih q' (i+1) (d+1) hq' hlt'
      · by_cases hr : t = Token.rightBrace
        · subst hr
          have hd1 : 1 < d := by
            have := hlt 1
            have hq0 := hlt 0
            simp [List.take_succ_cons, closes_cons, opens_cons, closes_nil, opens_nil] at this hq0
            omega
          have hlt' : ∀ n, closes (q'.take n) < (d-1) + opens (q'.take n) := by
            intro n
            have := hlt (n+1)
            simp [List.take_succ_cons, closes_cons, opens_cons] at this
            omega
          simp only [skipLoop, hd, if_neg hd, hi]
          exact ih q' (i+1) (d-1) hq' hlt'
        · rw [skipLoop_step_other hi hl hr hd]
          have hlt' : ∀ n, closes (q'.take n) < d + opens (q'.take n) := by
            intro n
            have := hlt (n+1)
            simp [List.take_succ_cons, closes_cons, opens_cons, hl, hr] at this
            simpa using this
          exact ih q' (i+1) d hq' hlt'

/-- The scan over a region whose running depth stays positive on proper
prefixes and whose net effect closes the initial depth stops exactly one
position past that region. -/
theorem skipLoop_balanced {tokens : List Token} :
    ∀ (q : List Token) (f i d : Nat) {rest : List Token}, tokens.drop i = q ++ rest →
      (∀ n, n < q.length → closes (q.take n) < d + opens (q.take n)) →
      closes q = d + opens q →
      q.length < f →
      skipLoop tokens f i d = some (i + q.length) := by
  intro q
  induction q with
  | nil =>
    intro f i d rest _ _ hnet hf
    have hd : d = 0 := by simpa [closes_nil, opens_nil] using hnet.symm
    obtain ⟨f', rfl⟩ : ∃ f', f = f' + 1 := ⟨f - 1, by omega⟩
    simp [skipLoop, hd]
  | cons t q' ih =>
    intro f i d rest hq hlt hnet hf
    obtain ⟨f', rfl⟩ : ∃ f', f = f' + 1 := ⟨f - 1, by omega⟩
    have hd : d ≠ 0 := by
      have := hlt 0 (by simp)
      simp [closes_nil, opens_nil] at this
      omega
    have hi : tokens[i]? = some t := getElem?_of_drop_cons (by simpa using hq)
    have hq' : tokens.drop (i+1) = q' ++ rest := drop_succ_of_drop_cons (by simpa using hq)
    have hres : i + (t :: q').length = (i + 1) + q'.length := by simp; omega
    by_cases hl : t = Token.leftBrace
    · subst hl
      have hlt' : ∀ n, n < q'.length → closes (q'.take n) < (d+1) + opens (q'.take n) := by
        intro n hn
        have := hlt (n+1) (by simpa using Nat.succ_lt_succ hn)
        simp [List.take_succ_cons, closes_cons, opens_cons] at this
        omega
      have hnet' : closes q' = (d+1) + opens q' := by
        simp [closes_cons, opens_cons] at hnet
        omega
      rw [hres]
      simp only [skipLoop, if_neg hd, hi]
      exact ih f' (i+1) (d+1) hq' hlt' hnet' (by simpa using hf)
    · by_cases hr : t = Token.rightBrace
      · subst hr
        have hd1 : 1 ≤ d := by omega
        have hlt' : ∀ n, n < q'.length → closes (q'.take n) < (d-1) + opens (q'.take n) := by
          intro n hn
          have := hlt (n+1) (by simpa using Nat.succ_lt_succ hn)
          simp [List.take_succ_cons, closes_cons, opens_cons] at this
          have hd2 : 1 < d ∨ (1 = d ∧ False) ∨ 1 ≤ closes (q'.take n) + 1 := by omega
          omega
        have hnet' : closes q' = (d-1) + opens q' := by
          simp [closes_cons, opens_cons] at hnet
          omega
        rw [hres]
        simp only [skipLoop, if_neg hd, hi]
        exact ih f' (i+1) (d-1) hq' hlt' hnet' (by simpa using hf)
      · rw [hres, skipLoop_step_other hi hl hr hd]
        have hlt' : ∀ n, n < q'.length → closes (q'.take n) < d + opens (q'.take n) := by
          intro n hn
          have := hlt (n+1) (by simpa using Nat.succ_lt_succ hn)
          simp [List.take_succ_cons, closes_cons, opens_cons, hl, hr] at this
          simpa using this
        have hnet' : closes q' = d + opens q' := by
          simp [closes_cons, opens_cons, hl, hr] at hnet
          simpa using hnet
        exact ih f' (i+1) d hq' hlt' hnet' (by simpa using hf)

theorem findBrace_step_other {tokens : List Token} {f i : Nat} {t : Token}
    (hi : tokens[i]? = some t) (h1 : t ≠ Token.leftBrace) :
    findBrace tokens (f+1) i = findBrace tokens f (i+1) := by
  cases t <;> simp_all [findBrace]

theorem findBrace_walk {tokens : List Token} :
    ∀ (pre : List Token) (f i : Nat) {rest : List Token}, tokens.drop i = pre ++ rest →
      (∀ t ∈ pre, t ≠ Token.leftBrace) →
      findBrace tokens (f + pre.length) i = findBrace tokens f (i + pre.length) := by
  intro pre
  induction pre with
  | nil => intro f i rest _ _; simp
  | cons a pre' ih =>
    intro f i rest hq hfree
    have hi : tokens[i]? = some a := getElem?_of_drop_cons (by simpa using hq)
    have hq' : tokens.drop (i+1) = pre' ++ rest := drop_succ_of_drop_cons (by simpa using hq)
    have hstep : f + (a :: pre').length = (f + pre'.length) + 1 := by simp; omega
    rw [hstep, findBrace_step_other hi (hfree a (by simp))]
    have := ih f (i+1) hq' (fun t ht => hfree t (by simp [ht]))
    rw [this]
    congr 1
    simp
    omega

theorem findBrace_at {tokens : List Token} {f i : Nat}
    (hi : tokens[i]? = some Token.leftBrace) :
    findBrace tokens (f+1) i = some (i+1) := by
  simp [findBrace, hi]

/-! ## Counter append lemmas -/

theorem opens_append (a b : List Token) : opens (a ++ b) = opens a + opens b := by
  induction a with
  | nil => simp [opens_nil]
  | cons t ts ih => simp [opens_cons, ih]; omega

theorem closes_append (a b : List Token) : closes (a ++ b) = closes a + closes b := by
  induction a with
  | nil => simp [closes_nil]
  | cons t ts ih => simp [closes_cons, ih]; omega

/-- The proper prefixes of a balanced body followed by its closing brace keep
the depth-one scan strictly above zero. -/
theorem prefix_lt_of_balanced {body : List Token}
    (h1 : ∀ n, closes (body.take n) ≤ opens (body.take n)) :
    ∀ n, n < (body ++ [Token.rightBrace]).length →
      closes ((body ++ [Token.rightBrace]).take n) <
        1 + opens ((body ++ [Token.rightBrace]).take n) := by
  intro n hn
  have hle : n ≤ body.length := by simpa using Nat.lt_succ_iff.mp (by simpa using hn)
  rw [List.take_append_of_le_length hle]
  have := h1 n
  omega

/-- A balanced body followed by its closing brace has net effect closing a
depth-one scan. -/
theorem net_of_balanced {body : List Token} (h2 : opens body = closes body) :
    closes (body ++ [Token.rightBrace]) = 1 + opens (body ++ [Token.rightBrace]) := by
  rw [closes_append, opens_append]
  simp [opens_cons, closes_cons, opens_nil, closes_nil]
  omega

theorem getD_of_getElem? {tokens : List Token} {j : Nat} {x : Token} (d : Token)
    (h : tokens[j]? = some x) : tokens.getD j d = x := by
  simp [List.getD, h]

/-! ## Capture-loop lemmas (`get_module_content`'s inline branch) -/

theorem capLoop_step_other {tokens : List Token} {f i d : Nat} {t : Token} {acc : List Token}
    (hi : tokens[i]? = some t) (h1 : t ≠ Token.leftBrace) (h2 : t ≠ Token.rightBrace)
    (hd : d ≠ 0) :
    capLoop tokens (f+1) i d acc = capLoop tokens f (i+1) d (acc ++ [t]) := by
  cases t <;> simp_all [capLoop]

theorem capLoop_never_closes {tokens : List Token} :
    ∀ (f : Nat) (q : List Token) (i d : Nat) (acc : List Token), tokens.drop i = q →
      (∀ n, closes (q.take n) < d + opens (q.take n)) →
      capLoop tokens f i d acc = none := by
  intro f
  induction f with
  | zero => intro q i d acc _ _; rfl
  | succ f ih =>
    intro q i d acc hq hlt
    have hd : d ≠ 0 := by
      have := hlt 0
      simp [closes_nil, opens_nil] at this
      omega
    cases q with
    | nil =>
      have hi : tokens[i]? = none := getElem?_none_of_drop_nil hq
      simp [capLoop, hd, hi]
    | cons t q' =>
      have hi : tokens[i]? = some t := getElem?_of_drop_cons hq
      have hq' : tokens.drop (i+1) = q' := drop_succ_of_drop_cons hq
      by_cases hl : t = Token.leftBrace
      · subst hl
        have hlt' : ∀ n, closes (q'.take n) < (d+1) + opens (q'.take n) := by
          intro n
          have := hlt (n+1)
          simp [List.take_succ_cons, closes_cons, opens_cons] at this
          omega
        simp only [capLoop, if_neg hd, hi]
        exact ih q' (i+1) (d+1) _ hq' hlt'
      · by_cases hr : t = Token.rightBrace
        · subst hr
          have hd1 : 1 < d := by
            have ha := hlt 1
            have hb := hlt 0
            simp [List.take_succ_cons, closes_cons, opens_cons, closes_nil, opens_nil] at ha hb
            omega
          have hlt' : ∀ n, closes (q'.take n) < (d-1) + opens (q'.take n) := by
            intro n
            have := hlt (n+1)
            simp [List.take_succ_cons, closes_cons, opens_cons] at this
            omega
          simp only [capLoop, if_neg hd, hi]
          exact ih q' (i+1) (d-1) _ hq' hlt'
        · rw [capLoop_step_other hi hl hr hd]
          have hlt' : ∀ n, closes (q'.take n) < d + opens (q'.take n) := by
            intro n
            have := hlt (n+1)
            simp [List.take_succ_cons, closes_cons, opens_cons, hl, hr] at this
            simpa using this
          exact ih q' (i+1) d _ hq' hlt'

theorem capLoop_balanced {tokens : List Token} :
    ∀ (q : List Token) (f i d : Nat) (acc : List Token) {rest : List Token},
      tokens.drop i = q ++ rest →
      (∀ n, n < q.length → closes (q.take n) < d + opens (q.take n)) →
      closes q = d + opens q →
      q.length < f →
      capLoop tokens f i d acc = some (acc ++ q, i + q.length) := by
  intro q
  induction q with
  | nil =>
    intro f i d acc rest _ _ hnet hf
    have hd : d = 0 := by simpa [closes_nil, opens_nil] using hnet.symm
    obtain ⟨f', rfl⟩ : ∃ f', f = f' + 1 := ⟨f - 1, by omega⟩
    simp [capLoop, hd]
  | cons t q' ih =>
    intro f i d acc rest hq hlt hnet hf
    obtain ⟨f', rfl⟩ : ∃ f', f = f' + 1 := ⟨f - 1, by omega⟩
    have hd : d ≠ 0 := by
      have := hlt 0 (by simp)
      simp [closes_nil, opens_nil] at this
      omega
    have hi : tokens[i]? = some t := getElem?_of_drop_cons (by simpa using hq)
    have hq' : tokens.drop (i+1) = q' ++ rest := drop_succ_of_drop_cons (by simpa using hq)
    have hres : i + (t :: q').length = (i + 1) + q'.length := by simp; omega
    have hacc : acc ++ t :: q' = (acc ++ [t]) ++ q' := by simp
    by_cases hl : t = Token.leftBrace
    · subst hl
      have hlt' : ∀ n, n < q'.length → closes (q'.take n) < (d+1) + opens (q'.take n) := by
        intro n hn
        have := hlt (n+1) (by simpa using Nat.succ_lt_succ hn)
        simp [List.take_succ_cons, closes_cons, opens_cons] at this
        omega
      have hnet' : closes q' = (d+1) + opens q' := by
        simp [closes_cons, opens_cons] at hnet
        omega
      rw [hres, hacc]
      simp only [capLoop, if_neg hd, hi]
      exact ih f' (i+1) (d+1) _ hq' hlt' hnet' (by simpa using hf)
    · by_cases hr : t = Token.rightBrace
      · subst hr
        have hlt' : ∀ n, n < q'.length → closes (q'.take n) < (d-1) + opens (q'.take n) := by
          intro n hn
          have := hlt (n+1) (by simpa using Nat.succ_lt_succ hn)
          simp [List.take_succ_cons, closes_cons, opens_cons] at this
          omega
        have hnet' : closes q' = (d-1) + opens q' := by
          simp [closes_cons, opens_cons] at hnet
          omega
        rw [hres, hacc]
        simp only [capLoop, if_neg hd, hi]
        exact ih f' (i+1) (d-1) _ hq' hlt' hnet' (by simpa using hf)
      · rw [hres, hacc, capLoop_step_other hi hl hr hd]
        have hlt' : ∀ n, n < q'.length → closes (q'.take n) < d + opens (q'.take n) := by
          intro n hn
          have := hlt (n+1) (by simpa using Nat.succ_lt_succ hn)
          simp [List.take_succ_cons, closes_cons, opens_cons, hl, hr] at this
          simpa using this
        have hnet' : closes q' = d + opens q' := by
          simp [closes_cons, opens_cons, hl, hr] at hnet
          simpa using hnet
        exact ih f' (i+1) d _ hq' hlt' hnet' (by simpa using hf)

/-! ## `skip_impl_block` characterization -/

/-- `skip_impl_block` over a brace-free header followed by a balanced block
returns the number of tokens up to and including the block's closing
brace. -/
theorem skip_impl_block_balanced {tokens : List Token} {index : Nat}
    {header body rest : List Token}
    (hdec : tokens.drop index = header ++ Token.leftBrace :: (body ++ Token.rightBrace :: rest))
    (hhead : ∀ t ∈ header, t ≠ Token.leftBrace)
    (hbal1 : ∀ n, closes (body.take n) ≤ opens (body.take n))
    (hbal2 : opens body = closes body) :
    skip_impl_block tokens index = some (header.length + body.length + 1) := by
  have hlen : tokens.length - index = header.length + body.length + 2 + rest.length := by
    have h := drop_length_eq hdec
    simp [List.length_append] at h
    omega
  have hbound : header.length + body.length + 2 ≤ tokens.length := by
    have := Nat.sub_le tokens.length index
    omega
  obtain ⟨f, hf2, hfe⟩ : ∃ f, 2 ≤ f ∧ tokens.length + 2 = f + header.length :=
    ⟨tokens.length + 2 - header.length, by omega, by omega⟩
  have hwalk := findBrace_walk header f index hdec hhead
  have hbrace : tokens.drop (index + header.length) =
      Token.leftBrace :: (body ++ Token.rightBrace :: rest) :=
    drop_add_of_drop_append header hdec
  obtain ⟨f', rfl⟩ : ∃ f', f = f' + 1 := ⟨f - 1, by omega⟩
  have hfound : findBrace tokens (f' + 1) (index + header.length) =
      some (index + header.length + 1) :=
    findBrace_at (getElem?_of_drop_cons hbrace)
  have hql : tokens.drop (index + header.length + 1) =
      (body ++ [Token.rightBrace]) ++ rest := by
    have := drop_succ_of_drop_cons hbrace
    simpa using this
  have hskip : skipLoop tokens (f' + 1 + header.length) (index + header.length + 1) 1 =
      some ((index + header.length + 1) + (body ++ [Token.rightBrace]).length) :=
    skipLoop_balanced (body ++ [Token.rightBrace]) (f' + 1 + header.length)
      (index + header.length + 1) 1 hql
      (prefix_lt_of_balanced hbal1) (net_of_balanced hbal2) (by simp; omega)
  simp only [skip_impl_block]
  rw [hfe, hwalk, hfound]
  simp only [hskip]
  congr 1
  simp
  omega

/-- `skip_impl_block` aborts when no closing brace ever rebalances the block:
the depth counter never returns to zero before the stream ends. -/
theorem skip_impl_block_unbalanced {tokens : List Token} {index : Nat}
    {pre post : List Token}
    (hdec : tokens.drop index = pre ++ Token.leftBrace :: post)
    (hpre : ∀ t ∈ pre, t ≠ Token.leftBrace)
    (hnc : ∀ n, closes (post.take n) ≤ opens (post.take n)) :
    skip_impl_block tokens index = none := by
  have hlen : tokens.length - index = pre.length + 1 + post.length := by
    have h := drop_length_eq hdec
    simp [List.length_append] at h
    omega
  have hbound : pre.length + 1 ≤ tokens.length := by
    have := Nat.sub_le tokens.length index
    omega
  obtain ⟨f, hf2, hfe⟩ : ∃ f, 2 ≤ f ∧ tokens.length + 2 = f + pre.length :=
    ⟨tokens.length + 2 - pre.length, by omega, by omega⟩
  have hwalk := findBrace_walk pre f index hdec hpre
  have hbrace : tokens.drop (index + pre.length) = Token.leftBrace :: post :=
    drop_add_of_drop_append pre hdec
  obtain ⟨f', rfl⟩ : ∃ f', f = f' + 1 := ⟨f - 1, by omega⟩
  have hfound : findBrace tokens (f' + 1) (index + pre.length) =
      some (index + pre.length + 1) :=
    findBrace_at (getElem?_of_drop_cons hbrace)
  have hpost : tokens.drop (index + pre.length + 1) = post :=
    drop_succ_of_drop_cons hbrace
  have hskip : skipLoop tokens (f' + 1 + pre.length) (index + pre.length + 1) 1 = none :=
    skipLoop_never_closes (f' + 1 + pre.length) post (index + pre.length + 1) 1 hpost
      (fun n => by have := hnc n; omega)
  simp only [skip_impl_block]
  rw [hfe, hwalk, hfound]
  simp only [hskip]

/-! ## `mod_scan` characterization -/

theorem mod_scan_step_other {tokens : List Token} {f i : Nat} {t : Token}
    (hi : tokens[i]? = some t) (h1 : t ≠ Token.semicolon) (h2 : t ≠ Token.leftBrace) :
    mod_scan tokens (f+1) i = mod_scan tokens f (i+1) := by
  cases t <;> simp_all [mod_scan]

theorem mod_scan_walk {tokens : List Token} :
    ∀ (pre : List Token) (f i : Nat) {rest : List Token}, tokens.drop i = pre ++ rest →
      (∀ t ∈ pre, t ≠ Token.semicolon ∧ t ≠ Token.leftBrace) →
      mod_scan tokens (f + pre.length) i = mod_scan tokens f (i + pre.length) := by
  intro pre
  induction pre with
  | nil => intro f i rest _ _; simp
  | cons a pre' ih =>
    intro f i rest hq hfree
    have hi : tokens[i]? = some a := getElem?_of_drop_cons (by simpa using hq)
    have hq' : tokens.drop (i+1) = pre' ++ rest := drop_succ_of_drop_cons (by simpa using hq)
    have hstep : f + (a :: pre').length = (f + pre'.length) + 1 := by simp; omega
    rw [hstep, mod_scan_step_other hi (hfree a (by simp)).1 (hfree a (by simp)).2]
    have := ih f (i+1) hq' (fun t ht => hfree t (by simp [ht]))
    rw [this]
    congr 1
    simp
    omega

/-! ## `get_module_content` characterization -/

/-- The module scan over an unbalanced inline body aborts. -/
theorem get_module_content_unbalanced {tokens : List Token} {index : Nat}
    {pre post : List Token}
    (hdec : tokens.drop index = pre ++ Token.leftBrace :: post)
    (hpre : ∀ t ∈ pre, t ≠ Token.leftBrace ∧ t ≠ Token.semicolon)
    (hnc : ∀ n, closes (post.take n) ≤ opens (post.take n))
    (fs : String → Option (List Token)) (run : List Token → Res) :
    get_module_content fs run tokens index = none := by
  have hlen : tokens.length - index = pre.length + 1 + post.length := by
    have h := drop_length_eq hdec
    simp [List.length_append] at h
    omega
  have hbound : pre.length + 1 ≤ tokens.length := by
    have := Nat.sub_le tokens.length index
    omega
  obtain ⟨f, hf2, hfe⟩ : ∃ f, 2 ≤ f ∧ tokens.length + 2 = f + pre.length :=
    ⟨tokens.length + 2 - pre.length, by omega, by omega⟩
  have hwalk := mod_scan_walk pre f index hdec
    (fun t ht => ⟨(hpre t ht).2, (hpre t ht).1⟩)
  have hbrace : tokens.drop (index + pre.length) = Token.leftBrace :: post :=
    drop_add_of_drop_append pre hdec
  have hi : tokens[index + pre.length]? = some Token.leftBrace :=
    getElem?_of_drop_cons hbrace
  have hpost : tokens.drop (index + pre.length + 1) = post :=
    drop_succ_of_drop_cons hbrace
  have hcap : capLoop tokens (tokens.length + 2) (index + pre.length + 1) 1 [] = none :=
    capLoop_never_closes (tokens.length + 2) post (index + pre.length + 1) 1 [] hpost
      (fun n => by have := hnc n; omega)
  obtain ⟨f', rfl⟩ : ∃ f', f = f' + 1 := ⟨f - 1, by omega⟩
  have hms : mod_scan tokens (tokens.length + 2) index = none := by
    rw [hfe, hwalk]
    simp [mod_scan, hi, hcap]
  simp [get_module_content, hms]

/-- The module scan over a brace-free prefix followed by a balanced inline
body captures the body and its closing brace. -/
theorem get_module_content_inline {tokens : List Token} {index : Nat}
    {pre body rest : List Token}
    (hdec : tokens.drop index = pre ++ Token.leftBrace :: (body ++ Token.rightBrace :: rest))
    (hpre : ∀ t ∈ pre, t ≠ Token.leftBrace ∧ t ≠ Token.semicolon)
    (hbal1 : ∀ n, closes (body.take n) ≤ opens (body.take n))
    (hbal2 : opens body = closes body)
    (fs : String → Option (List Token)) (run : List Token → Res) :
    get_module_content fs run tokens index = run (body ++ [Token.rightBrace]) := by
  have hlen : tokens.length - index = pre.length + body.length + 2 + rest.length := by
    have h := drop_length_eq hdec
    simp [List.length_append] at h
    omega
  have hbound : pre.length + body.length + 2 ≤ tokens.length := by
    have := Nat.sub_le tokens.length index
    omega
  obtain ⟨f, hf2, hfe⟩ : ∃ f, 2 ≤ f ∧ tokens.length + 2 = f + pre.length :=
    ⟨tokens.length + 2 - pre.length, by omega, by omega⟩
  have hwalk := mod_scan_walk pre f index hdec
    (fun t ht => ⟨(hpre t ht).2, (hpre t ht).1⟩)
  have hbrace : tokens.drop (index + pre.length) =
      Token.leftBrace :: (body ++ Token.rightBrace :: rest) :=
    drop_add_of_drop_append pre hdec
  have hi : tokens[index + pre.length]? = some Token.leftBrace :=
    getElem?_of_drop_cons hbrace
  have hpost : tokens.drop (index + pre.length + 1) =
      (body ++ [Token.rightBrace]) ++ rest := by
    have := drop_succ_of_drop_cons hbrace
    simpa using this
  have hcap : capLoop tokens (tokens.length + 2) (index + pre.length + 1) 1 [] =
      some (([] : List Token) ++ (body ++ [Token.rightBrace]),
        (index + pre.length + 1) + (body ++ [Token.rightBrace]).length) :=
    capLoop_balanced (body ++ [Token.rightBrace]) (tokens.length + 2)
      (index + pre.length + 1) 1 [] hpost
      (prefix_lt_of_balanced hbal1) (net_of_balanced hbal2) (by simp; omega)
  obtain ⟨f', rfl⟩ : ∃ f', f = f' + 1 := ⟨f - 1, by omega⟩
  have hms : mod_scan tokens (tokens.length + 2) index =
      some (.inline (body ++ [Token.rightBrace])) := by
    rw [hfe, hwalk]
    simp [mod_scan, hi, hcap]
  simp [get_module_content, hms]

/-- The module scan over a terminator-free and brace-free prefix ending in an
identifier followed by a statement terminator resolves to the conventional
file path built from that identifier. -/
theorem get_module_content_file {tokens : List Token} {index : Nat}
    {pre rest : List Token} {nm : String}
    (hdec : tokens.drop index = pre ++ Token.ident nm :: Token.semicolon :: rest)
    (hpre : ∀ t ∈ pre, t ≠ Token.leftBrace ∧ t ≠ Token.semicolon)
    (fs : String → Option (List Token)) (run : List Token → Res) :
    get_module_content fs run tokens index =
      (match fs ("input_files/" ++ nm ++ ".nr") with
       | none => some (Except.error DocError.GetDocError)
       | some ts => run ts) := by
  have hdec' : tokens.drop index =
      (pre ++ [Token.ident nm]) ++ (Token.semicolon :: rest) := by
    simpa [List.append_assoc] using hdec
  have hlen : tokens.length - index = pre.length + 2 + rest.length := by
    have h := drop_length_eq hdec
    simp [List.length_append] at h
    omega
  have hbound : pre.length + 2 ≤ tokens.length := by
    have := Nat.sub_le tokens.length index
    omega
  obtain ⟨f, hf2, hfe⟩ : ∃ f, 2 ≤ f ∧
      tokens.length + 2 = f + (pre ++ [Token.ident nm]).length :=
    ⟨tokens.length + 2 - (pre.length + 1), by omega, by simp; omega⟩
  have hwalk := mod_scan_walk (pre ++ [Token.ident nm]) f index hdec'
    (by
      intro t ht
      simp at ht
      rcases ht with ht | ht
      · exact ⟨(hpre t ht).2, (hpre t ht).1⟩
      · subst ht; exact ⟨by simp, by simp⟩)
  have hsemi : tokens.drop (index + (pre ++ [Token.ident nm]).length) =
      Token.semicolon :: rest :=
    drop_add_of_drop_append (pre ++ [Token.ident nm]) hdec'
  have hi : tokens[index + (pre ++ [Token.ident nm]).length]? = some Token.semicolon :=
    getElem?_of_drop_cons hsemi
  have hident : tokens[index + pre.length]? = some (Token.ident nm) :=
    getElem?_of_drop_cons (drop_add_of_drop_append pre hdec)
  obtain ⟨f', rfl⟩ : ∃ f', f = f' + 1 := ⟨f - 1, by omega⟩
  have hix : index + (pre ++ [Token.ident nm]).length = (index + pre.length) + 1 := by
    simp
    omega
  have hms : mod_scan tokens (tokens.length + 2) index =
      some (.file ("input_files/" ++ nm ++ ".nr")) := by
    rw [hfe, hwalk, hix]
    rw [hix] at hi
    have hne : (index + pre.length) + 1 ≠ 0 := by omega
    simp [mod_scan, hi, hne]
    rw [hident]
    rfl
  simp only [get_module_content, hms]

/-! ## Claim C4 -/

/-- C4: For every token stream that ends before the Scope Scanner's depth
counter returns to zero (a scope-open is found, and from there on the
running close count never exceeds the running open count), both the
scope-skipping routine (`skip_impl_block`) and the scope-capturing routine
(`get_module_content`'s inline branch) fail — modelled by `none`, the
surfaced abort — and never return a normal result. -/
theorem c4_unbalanced_stream_never_normal (tokens : List Token) (index : Nat)
    (pre post : List Token)
    (hdec : tokens.drop index = pre ++ Token.leftBrace :: post)
    (hpre : ∀ t ∈ pre, t ≠ Token.leftBrace ∧ t ≠ Token.semicolon)
    (hnc : ∀ n, closes (post.take n) ≤ opens (post.take n))
    (fs : String → Option (List Token)) (run : List Token → Res) :
    skip_impl_block tokens index = none ∧
      get_module_content fs run tokens index = none :=
  ⟨skip_impl_block_unbalanced hdec (fun t ht => (hpre t ht).1) hnc,
    get_module_content_unbalanced hdec hpre hnc fs run⟩

/-- Witness for C4: the one-token stream holding a single trailing unmatched
scope-open makes both routines abort. -/
theorem c4_unbalanced_stream_never_normal_witness :
    skip_impl_block [Token.leftBrace] 0 = none ∧
      get_module_content fsEmpty (fun _ => none) [Token.leftBrace] 0 = none :=
  c4_unbalanced_stream_never_normal [Token.leftBrace] 0 [] [] rfl
    (by simp) (fun n => by simp [closes_nil, opens_nil]) fsEmpty (fun _ => none)

/-! ## Claim C10 -/

/-- C10: For every module declaration terminated by an opening scope with a
balanced body, the token sub-sequence captured and recursively extracted by
`get_module_content` excludes the module's opening scope token but includes
the final matching scope-close token; every interior token (`body`,
including nested braces) is captured in source order in between. -/
theorem c10_inline_capture_excludes_open_includes_close
    (tokens : List Token) (index : Nat) (pre body rest : List Token)
    (hdec : tokens.drop index = pre ++ Token.leftBrace :: (body ++ Token.rightBrace :: rest))
    (hpre : ∀ t ∈ pre, t ≠ Token.leftBrace ∧ t ≠ Token.semicolon)
    (hbal1 : ∀ n, closes (body.take n) ≤ opens (body.take n))
    (hbal2 : opens body = closes body)
    (fs : String → Option (List Token)) (run : List Token → Res) :
    get_module_content fs run tokens index = run (body ++ [Token.rightBrace]) :=
  get_module_content_inline hdec hpre hbal1 hbal2 fs run

/-- Witness for C10: `mod m { x }` hands `x }` — not `{ x }` — to the
recursive extraction. -/
theorem c10_inline_capture_excludes_open_includes_close_witness :
    get_module_content fsEmpty (fun ts => some (.ok [.mk .Function "w" "" (.Function (tokensText ts))]))
      [Token.keyword Keyword.Mod, Token.ident "m", Token.leftBrace, Token.ident "x",
        Token.rightBrace] 0 =
      some (.ok [.mk .Function "w" "" (.Function (tokensText [Token.ident "x", Token.rightBrace]))]) :=
  c10_inline_capture_excludes_open_includes_close
    [Token.keyword Keyword.Mod, Token.ident "m", Token.leftBrace, Token.ident "x",
      Token.rightBrace] 0
    [Token.keyword Keyword.Mod, Token.ident "m"] [Token.ident "x"] [] rfl
    (by decide)
    (fun n => by cases n <;> simp [closes_nil, opens_nil, closes_cons, opens_cons, List.take_nil])
    (by simp [opens_cons, closes_cons, opens_nil, closes_nil])
    fsEmpty (fun ts => some (.ok [.mk .Function "w" "" (.Function (tokensText ts))]))

/-! ## Claim C3 -/

/-- C3: For every module declaration terminated by a statement terminator,
`get_module_content` resolves the conventional path (the fixed directory and
extension applied to the preceding identifier token's text), and the module's
content is exactly what a standalone run of the Tree Builder
(`to_output`, at the same recursion depth) produces over that file's own
tokens; a failed read or tokenization (`fs` returning `none`) is surfaced as
the fatal extraction error `GetDocError` for that module. -/
theorem c3_module_file_refinement
    (fs : String → Option (List Token)) (depth : Nat)
    (tokens : List Token) (index : Nat) (pre rest : List Token) (nm : String)
    (hdec : tokens.drop index = pre ++ Token.ident nm :: Token.semicolon :: rest)
    (hpre : ∀ t ∈ pre, t ≠ Token.leftBrace ∧ t ≠ Token.semicolon) :
    get_module_content fs (to_output fs depth) tokens index =
      (match fs ("input_files/" ++ nm ++ ".nr") with
       | none => some (Except.error DocError.GetDocError)
       | some ts => to_output fs depth ts) :=
  get_module_content_file hdec hpre fs (to_output fs depth)

/-- Witness for C3: `mod m;` under the empty file system surfaces
`GetDocError`. -/
theorem c3_module_file_refinement_witness :
    get_module_content fsEmpty (to_output fsEmpty 1)
      [Token.keyword Keyword.Mod, Token.ident "m", Token.semicolon] 0 =
      (match fsEmpty ("input_files/" ++ "m" ++ ".nr") with
       | none => some (Except.error DocError.GetDocError)
       | some ts => to_output fsEmpty 1 ts) :=
  c3_module_file_refinement fsEmpty 1
    [Token.keyword Keyword.Mod, Token.ident "m", Token.semicolon] 0
    [Token.keyword Keyword.Mod] [] "m" rfl (by decide)

/-! ## Claim C9 -/

/-- C9: Streams whose final token is a declaration keyword (function, struct
or trait), or a module keyword within two tokens of the end, make
`Output::to_output` read past the end of the stream (the abort branch of the
embedding, `none`, is reached), while the malformed-declaration skip — shown
in the last conjunct, where an in-range non-identifier follows the keyword —
does not cover a declaration keyword that ends the stream. -/
theorem c9_trailing_keyword_reads_out_of_range :
    to_output fsEmpty 1 [Token.keyword Keyword.Fn] = none ∧
      to_output fsEmpty 1 [Token.keyword Keyword.Struct] = none ∧
      to_output fsEmpty 1 [Token.keyword Keyword.Trait] = none ∧
      to_output fsEmpty 1 [Token.keyword Keyword.Mod, Token.ident "a"] = none ∧
      to_output fsEmpty 1 [Token.keyword Keyword.Fn, Token.comma] = some (.ok []) :=
  ⟨rfl, rfl, rfl, rfl, rfl⟩

/-! ## Tree Builder stepping lemmas -/

theorem to_output_go_skip_steps {mc : List Token → Nat → Res} {tokens : List Token} :
    ∀ (k g i : Nat) (first : Bool) (acc : List Output), i + k ≤ tokens.length →
      to_output_go mc (g + k) tokens i k first acc =
        to_output_go mc g tokens (i + k) 0 first acc := by
  intro k
  induction k with
  | zero => intro g i first acc _; rfl
  | succ k ih =>
    intro g i first acc hle
    have hi : i < tokens.length := by omega
    have hsome : tokens[i]? = some tokens[i] := List.getElem?_eq_getElem hi
    have hstep : to_output_go mc (g + (k+1)) tokens i (k+1) first acc =
        to_output_go mc (g + k) tokens (i+1) k first acc := by
      simp [to_output_go, hsome]
    rw [hstep, ih g (i+1) first acc (by omega)]
    congr 1
    omega

/-! ## Claim C6 -/

/-- C6: An implementation keyword reached at the top level (pending skip
zero) makes the Tree Builder compute a skip count bypassing the whole
balanced impl block and emit no node for it: the traversal resumes, with the
same accumulated node list, one position past the block's closing brace, so
no declaration keyword inside the impl block's body (`body` is arbitrary)
ever produces an independent top-level node in the output list. -/
theorem c6_impl_block_bypassed
    (mc : List Token → Nat → Res) (tokens : List Token) (i : Nat)
    (header body rest : List Token)
    (hdec : tokens.drop i =
      Token.keyword Keyword.Impl :: (header ++ Token.leftBrace :: (body ++ Token.rightBrace :: rest)))
    (hhead : ∀ t ∈ header, t ≠ Token.leftBrace)
    (hbal1 : ∀ n, closes (body.take n) ≤ opens (body.take n))
    (hbal2 : opens body = closes body)
    (g : Nat) (first : Bool) (acc : List Output) :
    to_output_go mc (g + (header.length + body.length + 2) + 1) tokens i 0 first acc =
      to_output_go mc g tokens (i + header.length + body.length + 3) 0 first acc := by
  have hdec' : tokens.drop i =
      (Token.keyword Keyword.Impl :: header) ++ Token.leftBrace ::
        (body ++ Token.rightBrace :: rest) := by
    simpa using hdec
  have hsib : skip_impl_block tokens i =
      some ((Token.keyword Keyword.Impl :: header).length + body.length + 1) :=
    skip_impl_block_balanced hdec'
      (by
        intro t ht
        simp at ht
        rcases ht with rfl | ht
        · simp
        · exact hhead t ht)
      hbal1 hbal2
  have hn : (Token.keyword Keyword.Impl :: header).length + body.length + 1 =
      header.length + body.length + 2 := by simp; omega
  rw [hn] at hsib
  have hi : tokens[i]? = some (Token.keyword Keyword.Impl) :=
    getElem?_of_drop_cons hdec
  have hlen : tokens.length - i = header.length + body.length + 3 + rest.length := by
    have h := drop_length_eq hdec
    simp [List.length_append] at h
    omega
  have hle : (i + 1) + (header.length + body.length + 2) ≤ tokens.length := by omega
  have hstep : to_output_go mc (g + (header.length + body.length + 2) + 1) tokens i 0 first acc =
      to_output_go mc (g + (header.length + body.length + 2)) tokens (i+1)
        (header.length + body.length + 2) first acc := by
    simp [to_output_go, hi, hsib]
  rw [hstep, to_output_go_skip_steps (header.length + body.length + 2) g (i+1) first acc hle]
  congr 1
  omega

/-- Witness for C6: `impl T ... fn f ...` followed by `;` — the builder jumps from
the impl keyword straight past the block's closing brace. -/
theorem c6_impl_block_bypassed_witness :
    to_output_go (fun _ _ => none) (3 + (1 + 2 + 2) + 1)
      [Token.keyword Keyword.Impl, Token.ident "T", Token.leftBrace,
        Token.keyword Keyword.Fn, Token.ident "f", Token.rightBrace, Token.semicolon]
      0 0 true [] =
    to_output_go (fun _ _ => none) 3
      [Token.keyword Keyword.Impl, Token.ident "T", Token.leftBrace,
        Token.keyword Keyword.Fn, Token.ident "f", Token.rightBrace, Token.semicolon]
      (0 + 1 + 2 + 3) 0 true [] :=
  c6_impl_block_bypassed (fun _ _ => none)
    [Token.keyword Keyword.Impl, Token.ident "T", Token.leftBrace,
      Token.keyword Keyword.Fn, Token.ident "f", Token.rightBrace, Token.semicolon]
    0 [Token.ident "T"] [Token.keyword Keyword.Fn, Token.ident "f"] [Token.semicolon]
    rfl (by decide)
    (fun n => by
      cases n with
      | zero => simp [closes_nil, opens_nil]
      | succ n =>
        cases n <;>
          simp [closes_nil, opens_nil, closes_cons, opens_cons, List.take_nil])
    (by simp [opens_cons, closes_cons, opens_nil, closes_nil])
    3 true []

/-! ## Claim C7 -/

/-- C7 counterexample: a trait keyword followed by a non-identifier does not
get skipped locally — the pre-computed scope skip (issued before the name
check) runs off the stream and the whole pass aborts, instead of producing
the empty node list the claim predicts. -/
theorem c7_malformed_declaration_counterexample :
    to_output fsEmpty 1 [Token.keyword Keyword.Trait, Token.comma] = none ∧
      (none : Res) ≠ some (.ok []) :=
  ⟨rfl, by simp⟩

/-- C7 (amended): For a function or struct keyword whose following token
exists and is not an identifier, the Tree Builder emits no node and does not
fail: the declaration is skipped locally and the traversal continues at the
next position with the same state, producing the same nodes it would
otherwise produce.  (For trait keywords — and module keywords whose
second-next token opens a scope — the skip over the brace block is computed
before the name check, so an absent or unbalanced block aborts the pass
instead.) -/
theorem c7_malformed_fn_struct_skipped_locally
    (mc : List Token → Nat → Res) (tokens : List Token) (i g : Nat)
    (first : Bool) (acc : List Output) (k : Keyword)
    (hk : k = Keyword.Fn ∨ k = Keyword.Struct)
    (hi : tokens[i]? = some (Token.keyword k))
    (t : Token) (ht : tokens[i+1]? = some t)
    (hnotid : ∀ s, t ≠ Token.ident s) :
    to_output_go mc (g+1) tokens i 0 first acc =
      to_output_go mc g tokens (i+1) 0 first acc := by
  rcases hk with rfl | rfl <;>
    cases t <;> first
      | exact absurd rfl (hnotid _)
      | simp [to_output_go, hi, ht]

/-- Witness for C7: `fn ,` — the malformed function declaration is skipped
and the pass continues. -/
theorem c7_malformed_fn_struct_skipped_locally_witness :
    to_output_go (fun _ _ => none) 2 [Token.keyword Keyword.Fn, Token.comma] 0 0 true [] =
      to_output_go (fun _ _ => none) 1 [Token.keyword Keyword.Fn, Token.comma] 1 0 true [] :=
  c7_malformed_fn_struct_skipped_locally (fun _ _ => none)
    [Token.keyword Keyword.Fn, Token.comma] 0 1 true [] Keyword.Fn (Or.inl rfl) rfl
    Token.comma rfl (fun _ h => Token.noConfusion h)

/-! ## Comment Associator lemmas -/

theorem getElem?_append_cons (p : List Token) (x : Token) (rest : List Token) :
    (p ++ x :: rest)[p.length]? = some x := by
  induction p with
  | nil => simp
  | cons a t ih => simpa using ih

theorem runText_append (a b : List Token) : runText (a ++ b) = runText a ++ runText b := by
  induction a with
  | nil => simp [runText]
  | cons t ts ih => simp [runText, ih, String.append_assoc]

/-- The seeded backward run of `doc` collects exactly the texts of the
contiguous undecorated-comment run that sits right before the seed, in source
order, and stops at the first non-matching token. -/
theorem docNoneRun_run {tokens : List Token} (pre : List Token)
    (hstop : pre = [] ∨ ∃ p l, pre = p ++ [l] ∧ ¬ IsUndecoratedComment l) :
    ∀ (run : List Token) (tail : List Token) (res : String),
      tokens = pre ++ run ++ tail →
      (∀ t ∈ run, IsUndecoratedComment t) →
      docNoneRun tokens (pre.length + run.length) res = runText run ++ res := by
  intro run
  induction run using List.reverseRecOn with
  | nil =>
    intro tail res hdec _
    rcases hstop with rfl | ⟨p, l, rfl, hl⟩
    · simp [docNoneRun, runText]
    · have hdec' : tokens = p ++ l :: tail := by simpa using hdec
      have hget : tokens[p.length]? = some l := by
        rw [hdec']; exact getElem?_append_cons p l tail
      have hlen : (p ++ [l]).length + ([] : List Token).length = p.length + 1 := by simp
      rw [hlen]
      show docNoneRun tokens (p.length + 1) res = runText [] ++ res
      cases l with
      | lineComment s sty =>
        cases sty with
        | none => exact absurd (Or.inl ⟨s, rfl⟩) hl
        | some st => simp [docNoneRun, hget, runText]
      | blockComment s sty =>
        cases sty with
        | none => exact absurd (Or.inr ⟨s, rfl⟩) hl
        | some st => simp [docNoneRun, hget, runText]
      | ident s => simp [docNoneRun, hget, runText]
      | keyword k => simp [docNoneRun, hget, runText]
      | leftBrace => simp [docNoneRun, hget, runText]
      | rightBrace => simp [docNoneRun, hget, runText]
      | semicolon => simp [docNoneRun, hget, runText]
      | comma => simp [docNoneRun, hget, runText]
      | other s => simp [docNoneRun, hget, runText]
  | append_singleton run' u ih =>
    intro tail res hdec hund
    have hu : IsUndecoratedComment u := hund u (by simp)
    have hdec' : tokens = (pre ++ run') ++ (u :: tail) := by
      simpa [List.append_assoc] using hdec
    have hget : tokens[pre.length + run'.length]? = some u := by
      rw [hdec']
      have := getElem?_append_cons (pre ++ run') u tail
      simpa using this
    have hlen : pre.length + (run' ++ [u]).length = (pre.length + run'.length) + 1 := by
      simp
      omega
    rw [hlen]
    have hrec : tokens = pre ++ run' ++ (u :: tail) := by
      simpa [List.append_assoc] using hdec
    rcases hu with ⟨s, rfl⟩ | ⟨s, rfl⟩
    · have hstep : docNoneRun tokens ((pre.length + run'.length) + 1) res =
          docNoneRun tokens (pre.length + run'.length) (s ++ res) := by
        simp [docNoneRun, hget]
      rw [hstep, ih (Token.lineComment s none :: tail) (s ++ res) hrec
        (fun t ht => hund t (by simp [ht])), runText_append]
      simp [runText, commentText, String.append_assoc]
    · have hstep : docNoneRun tokens ((pre.length + run'.length) + 1) res =
          docNoneRun tokens (pre.length + run'.length) (s ++ res) := by
        simp [docNoneRun, hget]
      rw [hstep, ih (Token.blockComment s none :: tail) (s ++ res) hrec
        (fun t ht => hund t (by simp [ht])), runText_append]
      simp [runText, commentText, String.append_assoc]

/-! ## Claim C5 -/

/-- C5 counterexample: the two outer-doc comment tokens `/// A` and `/// B`
immediately preceding a function declaration do not yield the doc text
`" A B"`: `doc` returns only the immediately preceding comment's text,
because its backward run extends only over undecorated-style comments and the
outer-doc style of the earlier comment breaks it. -/
theorem c5_doc_concatenation_counterexample :
    doc [Token.lineComment " A" (some DocStyle.Outer), Token.lineComment " B" (some DocStyle.Outer),
        Token.keyword Keyword.Fn, Token.ident "f"] 2 = some " B" ∧
      (" B" : String) ≠ " A B" ∧ (" B" : String) ≠ "A B" :=
  ⟨rfl, by decide, by decide⟩

/-- C5 (amended): The doc text of a declaration is the seed comment
immediately before it (of any style) prefixed, earliest first, by the texts
of the contiguous run of undecorated-style comments right before the seed;
the run is broken by any non-comment token or any doc-styled comment (a style
mismatch), so comments further back — outer-doc comments included — do not
contribute.  For `/// A` followed by `/// B` this yields only `" B"`. -/
theorem c5_doc_run_concatenation
    (tokens : List Token) (pre run tail : List Token) (b : String) (bs : Option DocStyle)
    (hdec : tokens = pre ++ run ++ (Token.lineComment b bs :: tail))
    (hrun : ∀ t ∈ run, IsUndecoratedComment t)
    (hstop : pre = [] ∨ ∃ p l, pre = p ++ [l] ∧ ¬ IsUndecoratedComment l) :
    doc tokens (pre.length + run.length + 1) = some (runText run ++ b) := by
  have hne : pre.length + run.length + 1 ≠ 0 := by omega
  have hseed : tokens[pre.length + run.length]? = some (Token.lineComment b bs) := by
    rw [hdec]
    have := getElem?_append_cons (pre ++ run) (Token.lineComment b bs) tail
    simpa [List.append_assoc] using this
  have hidx : pre.length + run.length + 1 - 1 = pre.length + run.length := by omega
  have hrun' := docNoneRun_run pre hstop run (Token.lineComment b bs :: tail) b
    (by simpa [List.append_assoc] using hdec) hrun
  simp only [doc, hne, if_neg hne, hidx, hseed]
  rw [hrun']
  simp

/-- Witness for C5: two undecorated comments before the seed comment are
concatenated in source order, while a non-comment token further back stops
the run. -/
theorem c5_doc_run_concatenation_witness :
    doc [Token.other "x", Token.lineComment "a" none, Token.lineComment "b" none,
        Token.lineComment " B" (some DocStyle.Outer), Token.keyword Keyword.Fn,
        Token.ident "f"] 4 =
      some (runText [Token.lineComment "a" none, Token.lineComment "b" none] ++ " B") :=
  c5_doc_run_concatenation
    [Token.other "x", Token.lineComment "a" none, Token.lineComment "b" none,
      Token.lineComment " B" (some DocStyle.Outer), Token.keyword Keyword.Fn,
      Token.ident "f"]
    [Token.other "x"] [Token.lineComment "a" none, Token.lineComment "b" none]
    [Token.keyword Keyword.Fn, Token.ident "f"] " B" (some DocStyle.Outer)
    rfl
    (by
      intro t ht
      simp at ht
      rcases ht with rfl | rfl
      · exact Or.inl ⟨"a", rfl⟩
      · exact Or.inl ⟨"b", rfl⟩)
    (Or.inr ⟨[], Token.other "x", rfl, by simp [IsUndecoratedComment]⟩)

/-! ## Claim C8 -/

/-- C8 counterexample: two consecutive top-level inner-doc comment tokens
(not adjacent to any declaration) do not collapse into a single node — the
Tree Builder pushes one `OuterComment` node per comment token, here two. -/
theorem c8_single_comment_block_counterexample :
    to_output fsEmpty 1
      [Token.lineComment " A" (some DocStyle.Inner), Token.lineComment " B" (some DocStyle.Inner),
        Token.semicolon] =
      some (.ok [Output.mk Ty.OuterComment "" "A B" Info.Blanc,
        Output.mk Ty.OuterComment "" "" Info.Blanc]) ∧
    ([Output.mk Ty.OuterComment "" "A B" Info.Blanc,
        Output.mk Ty.OuterComment "" "" Info.Blanc] : List Output).length ≠ 1 :=
  ⟨rfl, by simp⟩

/-- The forward merge loop of `outer_doc` over a run of inner-doc comment
tokens ahead of the cursor: it concatenates their texts onto the seed and
stops at the first non-inner-doc token, returning the index of the run's last
member. -/
theorem outerDocRun_merge {tokens : List Token} :
    ∀ (rs : List Token) (f i : Nat) (res : String) {t : Token} {rest : List Token},
      tokens.drop (i+1) = rs ++ t :: rest →
      (∀ c ∈ rs, IsInnerComment c) →
      ¬ IsInnerComment t →
      rs.length + 1 ≤ f →
      outerDocRun tokens f i res = some (res ++ runText rs, i + rs.length) := by
  intro rs
  induction rs with
  | nil =>
    intro f i res t rest hq _ ht hf
    obtain ⟨f', rfl⟩ : ∃ f', f = f' + 1 := ⟨f - 1, by omega⟩
    have hi : tokens[i+1]? = some t := getElem?_of_drop_cons (by simpa using hq)
    cases t with
    | lineComment s sty =>
      rcases sty with _ | st
      · simp [outerDocRun, hi, runText]
      · cases st with
        | Inner => exact absurd (Or.inl ⟨s, rfl⟩) ht
        | Outer => simp [outerDocRun, hi, runText]
    | blockComment s sty =>
      rcases sty with _ | st
      · simp [outerDocRun, hi, runText]
      · cases st with
        | Inner => exact absurd (Or.inr ⟨s, rfl⟩) ht
        | Outer => simp [outerDocRun, hi, runText]
    | ident s => simp [outerDocRun, hi, runText]
    | keyword k => simp [outerDocRun, hi, runText]
    | leftBrace => simp [outerDocRun, hi, runText]
    | rightBrace => simp [outerDocRun, hi, runText]
    | semicolon => simp [outerDocRun, hi, runText]
    | comma => simp [outerDocRun, hi, runText]
    | other s => simp [outerDocRun, hi, runText]
  | cons c rs' ih =>
    intro f i res t rest hq hrs ht hf
    obtain ⟨f', rfl⟩ : ∃ f', f = f' + 1 := ⟨f - 1, by omega⟩
    have hi : tokens[i+1]? = some c := getElem?_of_drop_cons (by simpa using hq)
    have hdrop : tokens.drop (i+1+1) = rs' ++ t :: rest :=
      drop_succ_of_drop_cons (by simpa using hq)
    have hrs' : ∀ x ∈ rs', IsInnerComment x := fun x hx => hrs x (by simp [hx])
    have hf' : rs'.length + 1 ≤ f' := by simp at hf; omega
    obtain ⟨s, rfl⟩ | ⟨s, rfl⟩ := hrs c (by simp)
    · have h2 := ih f' (i+1) (res ++ s) hdrop hrs' ht hf'
      have he : i + 1 + rs'.length = i + (rs'.length + 1) := by omega
      rw [he] at h2
      simp [outerDocRun, hi, h2, runText, commentText, String.append_assoc]
    · have h2 := ih f' (i+1) (res ++ s) hdrop hrs' ht hf'
      have he : i + 1 + rs'.length = i + (rs'.length + 1) := by omega
      rw [he] at h2
      simp [outerDocRun, hi, h2, runText, commentText, String.append_assoc]

/-- `outer_doc` at a run member: with the rest of the run `cs` ahead and a
non-inner-doc token after it, it returns the marker-stripped concatenation of
the member's display text with the remaining run texts, and the index of the
run's last member. -/
theorem outer_doc_run {tokens : List Token} {p : Nat} {c : Token} {cs : List Token}
    {t : Token} {rest : List Token}
    (hp : tokens[p]? = some c)
    (hdrop : tokens.drop (p+1) = cs ++ t :: rest)
    (hcs : ∀ x ∈ cs, IsInnerComment x) (ht : ¬ IsInnerComment t) :
    outer_doc tokens p =
      some (dropThroughSpace (Token.toString c ++ runText cs).data, p + cs.length) := by
  have hlen := drop_length_eq hdrop
  have hb : cs.length + 1 ≤ tokens.length + 2 := by simp at hlen; omega
  have hrun := outerDocRun_merge cs (tokens.length + 2) p (Token.toString c) hdrop hcs ht hb
  simp [outer_doc, hp, hrun]

/-- One step of the Tree Builder at an inner-doc comment token (no pending
skip): push one `OuterComment` node whose doc is the merged text if the flag
is armed and empty otherwise, and update the flag (armed entry disarms it;
disarmed entry re-arms it exactly when the merge stopped at the cursor). -/
theorem to_output_go_comment_step {mc : List Token → Nat → Res} {tokens : List Token}
    {f p : Nat} {c : Token} {txt : String} {j : Nat} (b : Bool) (acc : List Output)
    (hp : tokens[p]? = some c) (hc : IsInnerComment c)
    (ho : outer_doc tokens p = some (txt, j)) :
    to_output_go mc (f+1) tokens p 0 b acc =
      to_output_go mc f tokens (p+1) 0
        (if b then false else (if j = p then true else false))
        (acc ++ [Output.mk Ty.OuterComment "" (if b then txt else "") Info.Blanc]) := by
  rcases hc with ⟨s, rfl⟩ | ⟨s, rfl⟩ <;> cases b <;> simp [to_output_go, hp, ho]

/-- Walk of the Tree Builder over a run of inner-doc comment tokens entered
with the flag disarmed: one empty-doc `OuterComment` node per comment, and
the flag re-arms at the run's last member (a nonempty run exits armed). -/
theorem to_output_go_inner_run_unarmed {mc : List Token → Nat → Res} {tokens : List Token} :
    ∀ (cs : List Token) (g p : Nat) (acc : List Output) {t : Token} {rest : List Token},
      tokens.drop p = cs ++ t :: rest →
      (∀ x ∈ cs, IsInnerComment x) →
      ¬ IsInnerComment t →
      to_output_go mc (g + cs.length) tokens p 0 false acc =
        to_output_go mc g tokens (p + cs.length) 0 (if cs.isEmpty then false else true)
          (acc ++ cs.map fun _ => Output.mk Ty.OuterComment "" "" Info.Blanc) := by
  intro cs
  induction cs with
  | nil =>
    intro g p acc t rest _ _ _
    simp
  | cons c cs' ih =>
    intro g p acc t rest hq hcs ht
    have hp : tokens[p]? = some c := getElem?_of_drop_cons (by simpa using hq)
    have hdrop : tokens.drop (p+1) = cs' ++ t :: rest :=
      drop_succ_of_drop_cons (by simpa using hq)
    have hcs' : ∀ x ∈ cs', IsInnerComment x := fun x hx => hcs x (by simp [hx])
    have houter := outer_doc_run hp hdrop hcs' ht
    have hfe : g + (c :: cs').length = g + cs'.length + 1 := by
      simp only [List.length_cons]
      omega
    rw [hfe]
    rw [to_output_go_comment_step false acc hp (hcs c (by simp)) houter]
    cases cs' with
    | nil => simp
    | cons c2 cs'' =>
      have hne : ¬ (p + (c2 :: cs'').length = p) := by simp
      have h2 := ih g (p+1) (acc ++ [Output.mk Ty.OuterComment "" "" Info.Blanc]) hdrop hcs' ht
      have he : p + 1 + (c2 :: cs'').length = p + (c2 :: cs'').length + 1 := by
        simp only [List.length_cons]
        omega
      rw [he] at h2
      simp only [List.length_cons] at h2 ⊢
      simp [hne, h2]
      have hix : p + (cs''.length + 1) + 1 = p + (cs''.length + 1 + 1) := by omega
      rw [hix]

/-- C8 (amended): Each top-level inner-doc comment token yields its own
`OuterComment` node with empty name and `Blanc` detail — one node per token.
Only the doc text collapses: over a maximal run `c :: cs` of inner-doc
comments (line or block) followed by a non-inner-doc token, the run's first
node carries the merged marker-stripped run text exactly when the flag is
armed on entry, every other node carries empty doc, and the flag after the
run is armed unless the run was entered armed and had exactly one member
(the armed branch disarms unconditionally; the disarmed branch re-arms at
the run's last member, where the merge stops at the cursor). -/
theorem c8_one_node_per_comment_token
    (mc : List Token → Nat → Res) (tokens : List Token)
    (c : Token) (cs : List Token) (g p : Nat) (b : Bool) (acc : List Output)
    {t : Token} {rest : List Token}
    (hdec : tokens.drop p = c :: (cs ++ t :: rest))
    (hc : IsInnerComment c)
    (hcs : ∀ x ∈ cs, IsInnerComment x)
    (ht : ¬ IsInnerComment t) :
    to_output_go mc (g + (cs.length + 1)) tokens p 0 b acc =
      to_output_go mc g tokens (p + (cs.length + 1)) 0 (!b || !cs.isEmpty)
        (acc ++ Output.mk Ty.OuterComment ""
            (if b then dropThroughSpace (Token.toString c ++ runText cs).data else "")
            Info.Blanc ::
          cs.map fun _ => Output.mk Ty.OuterComment "" "" Info.Blanc) := by
  have hp : tokens[p]? = some c := getElem?_of_drop_cons hdec
  have hdrop : tokens.drop (p+1) = cs ++ t :: rest := drop_succ_of_drop_cons hdec
  have houter := outer_doc_run hp hdrop hcs ht
  cases b with
  | false =>
    have hall : ∀ x ∈ c :: cs, IsInnerComment x := by
      intro x hx
      rcases (by simpa using hx : x = c ∨ x ∈ cs) with rfl | hx2
      · exact hc
      · exact hcs x hx2
    have h2 := @to_output_go_inner_run_unarmed mc tokens (c :: cs) g p acc t rest
      (by simpa using hdec) hall ht
    simp only [List.length_cons] at h2 ⊢
    simpa using h2
  | true =>
    have hfe : g + (cs.length + 1) = g + cs.length + 1 := by omega
    rw [hfe]
    rw [to_output_go_comment_step true acc hp hc houter]
    have h2 := @to_output_go_inner_run_unarmed mc tokens cs g (p+1)
      (acc ++ [Output.mk Ty.OuterComment ""
        (dropThroughSpace (Token.toString c ++ runText cs).data) Info.Blanc]) t rest
      hdrop hcs ht
    have he : p + 1 + cs.length = p + (cs.length + 1) := by omega
    rw [he] at h2
    have hflag : (if cs.isEmpty then false else true) = (!true || !cs.isEmpty) := by
      cases cs <;> simp
    rw [hflag] at h2
    simpa using h2

/-- Witness for C8: a three-comment run (a line comment, a block comment,
another line comment) followed by a comma, entered with the flag armed: three
nodes, the first carrying the merged marker-stripped text, the others empty,
and the flag re-armed after the run. -/
theorem c8_one_node_per_comment_token_witness :
    to_output_go (fun _ _ => none) 4
        [Token.lineComment " A" (some DocStyle.Inner),
          Token.blockComment " B" (some DocStyle.Inner),
          Token.lineComment " C" (some DocStyle.Inner), Token.comma] 0 0 true [] =
      to_output_go (fun _ _ => none) 1
        [Token.lineComment " A" (some DocStyle.Inner),
          Token.blockComment " B" (some DocStyle.Inner),
          Token.lineComment " C" (some DocStyle.Inner), Token.comma] 3 0 true
        [Output.mk Ty.OuterComment "" "A B C" Info.Blanc,
          Output.mk Ty.OuterComment "" "" Info.Blanc,
          Output.mk Ty.OuterComment "" "" Info.Blanc] :=
  c8_one_node_per_comment_token (fun _ _ => none)
    [Token.lineComment " A" (some DocStyle.Inner),
      Token.blockComment " B" (some DocStyle.Inner),
      Token.lineComment " C" (some DocStyle.Inner), Token.comma]
    (Token.lineComment " A" (some DocStyle.Inner))
    [Token.blockComment " B" (some DocStyle.Inner),
      Token.lineComment " C" (some DocStyle.Inner)]
    1 0 true [] rfl (Or.inl ⟨" A", rfl⟩)
    (by
      intro x hx
      simp at hx
      rcases hx with rfl | rfl
      · exact Or.inr ⟨" B", rfl⟩
      · exact Or.inl ⟨" C", rfl⟩)
    (by rintro (⟨s, h⟩ | ⟨s, h⟩) <;> exact Token.noConfusion h)

/-! ## Struct signature lemmas -/

theorem structHeaderLoop_step_other {tokens : List Token} {f i : Nat} {t : Token} {res : String}
    (hi : tokens[i]? = some t) (h1 : t ≠ Token.leftBrace) :
    structHeaderLoop tokens (f+1) i res =
      structHeaderLoop tokens f (i+1) (res ++ t.toString ++ " ") := by
  cases t <;> simp_all [structHeaderLoop]

theorem structHeaderLoop_text {tokens : List Token} :
    ∀ (cs : List Token) (f i : Nat) (res : String) {rest : List Token},
      tokens.drop i = cs ++ Token.leftBrace :: rest →
      (∀ t ∈ cs, t ≠ Token.leftBrace) →
      cs.length + 1 ≤ f →
      structHeaderLoop tokens f i res = some (res ++ tokensText cs, i + cs.length) := by
  intro cs
  induction cs with
  | nil =>
    intro f i res rest hq _ hf
    obtain ⟨f', rfl⟩ : ∃ f', f = f' + 1 := ⟨f - 1, by omega⟩
    have hi : tokens[i]? = some Token.leftBrace := getElem?_of_drop_cons (by simpa using hq)
    simp [structHeaderLoop, hi, tokensText]
  | cons t cs' ih =>
    intro f i res rest hq hfree hf
    obtain ⟨f', rfl⟩ : ∃ f', f = f' + 1 := ⟨f - 1, by omega⟩
    have hi : tokens[i]? = some t := getElem?_of_drop_cons (by simpa using hq)
    have hq' : tokens.drop (i+1) = cs' ++ Token.leftBrace :: rest :=
      drop_succ_of_drop_cons (by simpa using hq)
    rw [structHeaderLoop_step_other hi (hfree t (by simp))]
    rw [ih f' (i+1) (res ++ t.toString ++ " ") hq' (fun u hu => hfree u (by simp [hu]))
      (by simp at hf ⊢; omega)]
    have hstr : res ++ t.toString ++ " " ++ tokensText cs' = res ++ tokensText (t :: cs') := by
      simp [tokensText, String.append_assoc]
    have hidx : (i+1) + cs'.length = i + (t :: cs').length := by simp; omega
    rw [hstr, hidx]

theorem pubFieldLoop_step_other {tokens : List Token} {f i : Nat} {t : Token} {res : String}
    (hi : tokens[i]? = some t) (h1 : t ≠ Token.comma) (h2 : t ≠ Token.rightBrace) :
    pubFieldLoop tokens (f+1) i res =
      pubFieldLoop tokens f (i+1) (res ++ t.toString ++ " ") := by
  cases t <;> simp_all [pubFieldLoop]

theorem pubFieldLoop_walk {tokens : List Token} :
    ∀ (cs : List Token) (f i : Nat) (res : String) {rest : List Token},
      tokens.drop i = cs ++ rest →
      (∀ t ∈ cs, t ≠ Token.comma ∧ t ≠ Token.rightBrace) →
      pubFieldLoop tokens (f + cs.length) i res =
        pubFieldLoop tokens f (i + cs.length) (res ++ tokensText cs) := by
  intro cs
  induction cs with
  | nil => intro f i res rest _ _; simp [tokensText]
  | cons t cs' ih =>
    intro f i res rest hq hfree
    have hi : tokens[i]? = some t := getElem?_of_drop_cons (by simpa using hq)
    have hq' : tokens.drop (i+1) = cs' ++ rest :=
      drop_succ_of_drop_cons (by simpa using hq)
    have hflen : f + (t :: cs').length = (f + cs'.length) + 1 := by simp; omega
    rw [hflen, pubFieldLoop_step_other hi (hfree t (by simp)).1 (hfree t (by simp)).2]
    rw [ih f (i+1) (res ++ t.toString ++ " ") hq' (fun u hu => hfree u (by simp [hu]))]
    have hstr : res ++ t.toString ++ " " ++ tokensText cs' = res ++ tokensText (t :: cs') := by
      simp [tokensText, String.append_assoc]
    have hidx : (i+1) + cs'.length = i + (t :: cs').length := by simp; omega
    rw [hstr, hidx]

theorem pubFieldLoop_at_comma {tokens : List Token} {f i : Nat} {res : String} {t' : Token}
    (hi : tokens[i]? = some Token.comma) (hi' : tokens[i+1]? = some t')
    (ht' : t' ≠ Token.rightBrace) :
    pubFieldLoop tokens (f+1) i res = some (res ++ ",\n", i+1) := by
  cases t' <;> simp_all [pubFieldLoop]

theorem pubFieldLoop_at_brace {tokens : List Token} {f i : Nat} {res : String}
    (hi : tokens[i]? = some Token.rightBrace) :
    pubFieldLoop tokens (f+1) i res = some (res, i) := by
  simp [pubFieldLoop, hi]

theorem structBodyLoop_step_other {tokens : List Token} {f i : Nat} {t : Token} {p : Bool}
    {res : String}
    (hi : tokens[i]? = some t) (h1 : t ≠ Token.rightBrace) (h2 : t ≠ Token.keyword Keyword.Pub) :
    structBodyLoop tokens (f+1) i p res = structBodyLoop tokens f (i+1) p res := by
  cases t with
  | keyword k => cases k <;> simp_all [structBodyLoop]
  | _ => simp_all [structBodyLoop]

theorem structBodyLoop_walk {tokens : List Token} :
    ∀ (cs : List Token) (f i : Nat) (p : Bool) (res : String) {rest : List Token},
      tokens.drop i = cs ++ rest →
      (∀ t ∈ cs, t ≠ Token.rightBrace ∧ t ≠ Token.keyword Keyword.Pub) →
      structBodyLoop tokens (f + cs.length) i p res =
        structBodyLoop tokens f (i + cs.length) p res := by
  intro cs
  induction cs with
  | nil => intro f i p res rest _ _; simp
  | cons t cs' ih =>
    intro f i p res rest hq hfree
    have hi : tokens[i]? = some t := getElem?_of_drop_cons (by simpa using hq)
    have hq' : tokens.drop (i+1) = cs' ++ rest :=
      drop_succ_of_drop_cons (by simpa using hq)
    have hflen : f + (t :: cs').length = (f + cs'.length) + 1 := by simp; omega
    rw [hflen, structBodyLoop_step_other hi (hfree t (by simp)).1 (hfree t (by simp)).2]
    rw [ih f (i+1) p res hq' (fun u hu => hfree u (by simp [hu]))]
    congr 1
    omega

theorem structBodyLoop_at_brace {tokens : List Token} {f i : Nat} {p : Bool} {res : String}
    (hi : tokens[i]? = some Token.rightBrace) :
    structBodyLoop tokens (f+1) i p res =
      some (res ++ (if p then "/* private fields */" else "") ++ "\n\x7d") := by
  simp [structBodyLoop, hi]

/-- Well-formedness of a struct-body field for the struct-signature claim:
non-empty, and its tokens are neither braces, separators nor the `pub`
keyword. -/
def FieldWF (fl : SField) : Prop :=
  fl.2 ≠ [] ∧ ∀ t ∈ fl.2,
    t ≠ Token.leftBrace ∧ t ≠ Token.rightBrace ∧ t ≠ Token.comma ∧
      t ≠ Token.keyword Keyword.Pub

instance (fl : SField) : Decidable (FieldWF fl) := by
  unfold FieldWF
  infer_instance

theorem fieldsTokens_cons (g : SField) (gs : List SField) :
    fieldsTokens (g :: gs) =
      (if gs.isEmpty then fieldTokens g else fieldTokens g ++ Token.comma :: fieldsTokens gs) := by
  cases gs <;> simp [fieldsTokens]

theorem fieldsTokens_head_ne_brace (g : SField) (gs : List SField)
    (hwf : FieldWF g) :
    ∃ t' tl, fieldsTokens (g :: gs) = t' :: tl ∧ t' ≠ Token.rightBrace := by
  obtain ⟨hne, hfree⟩ := hwf
  obtain ⟨u, us, hus⟩ : ∃ u us, g.2 = u :: us := by
    cases hg : g.2 with
    | nil => exact absurd hg hne
    | cons u us => exact ⟨u, us, rfl⟩
  have hu : u ≠ Token.rightBrace := (hfree u (by simp [hus])).2.1
  rcases gs with _ | ⟨g', gs'⟩
  · cases hp : g.1
    · exact ⟨u, us, by simp [fieldsTokens, fieldTokens, hp, hus],  hu⟩
    · exact ⟨Token.keyword Keyword.Pub, g.2,
        by simp [fieldsTokens, fieldTokens, hp], fun h => Token.noConfusion h⟩
  · cases hp : g.1
    · exact ⟨u, us ++ Token.comma :: fieldsTokens (g' :: gs'),
        by simp [fieldsTokens, fieldTokens, hp, hus], hu⟩
    · exact ⟨Token.keyword Keyword.Pub, g.2 ++ Token.comma :: fieldsTokens (g' :: gs'),
        by simp [fieldsTokens, fieldTokens, hp], fun h => Token.noConfusion h⟩

/-- The body loop of `struct_signature` over a comma-separated field list:
public fields are emitted verbatim (with their separators), private fields
are dropped, and the placeholder appears exactly when the scan ends with the
private flag still set. -/
theorem structBodyLoop_fields {tokens : List Token} :
    ∀ (fields : List SField) (f i : Nat) (p : Bool) (res : String) {rest : List Token},
      tokens.drop i = fieldsTokens fields ++ Token.rightBrace :: rest →
      (∀ fl ∈ fields, FieldWF fl) →
      (fieldsTokens fields).length + 2 ≤ f →
      structBodyLoop tokens f i p res =
        some (res ++ renderFields fields ++
          (if p && noPub fields then "/* private fields */" else "") ++ "\n\x7d") := by
  intro fields
  induction fields with
  | nil =>
    intro f i p res rest hq _ hf
    obtain ⟨f', rfl⟩ : ∃ f', f = f' + 1 := ⟨f - 1, by omega⟩
    have hi : tokens[i]? = some Token.rightBrace := by
      apply getElem?_of_drop_cons
      simpa [fieldsTokens] using hq
    rw [structBodyLoop_at_brace hi]
    simp [renderFields, noPub]
  | cons fl fields' ih =>
    rcases fl with ⟨pb, ts⟩
    intro f i p res rest hq hall hf
    obtain ⟨hne, hfree⟩ : FieldWF (pb, ts) := hall (pb, ts) (by simp)
    cases pb with
    | false =>
      cases fields' with
      | nil =>
        have hq1 : tokens.drop i = ts ++ (Token.rightBrace :: rest) := by
          simpa [fieldsTokens, fieldTokens] using hq
        simp only [fieldsTokens, fieldTokens, if_neg Bool.false_ne_true] at hf
        obtain ⟨F, hF2, hFe⟩ : ∃ F, 2 ≤ F ∧ f = F + ts.length :=
          ⟨f - ts.length, by omega, by omega⟩
        rw [hFe, structBodyLoop_walk ts F i p res hq1
          (fun t ht => ⟨(hfree t ht).2.1, (hfree t ht).2.2.2⟩)]
        obtain ⟨F', rfl⟩ : ∃ F', F = F' + 1 := ⟨F - 1, by omega⟩
        have hi2 : tokens[i + ts.length]? = some Token.rightBrace :=
          getElem?_of_drop_cons (drop_add_of_drop_append ts hq1)
        rw [structBodyLoop_at_brace hi2]
        simp [renderFields, noPub]
      | cons g gs =>
        have hq1 : tokens.drop i =
            (ts ++ [Token.comma]) ++ (fieldsTokens (g :: gs) ++ Token.rightBrace :: rest) := by
          simpa [fieldsTokens, fieldTokens, List.append_assoc] using hq
        have hflen : (fieldsTokens ((false, ts) :: g :: gs)).length =
            ts.length + 1 + (fieldsTokens (g :: gs)).length := by
          simp [fieldsTokens, fieldTokens]
          omega
        rw [hflen] at hf
        obtain ⟨F, hFb, hFe⟩ : ∃ F, (fieldsTokens (g :: gs)).length + 2 ≤ F ∧
            f = F + (ts ++ [Token.comma]).length :=
          ⟨f - (ts.length + 1), by omega, by simp; omega⟩
        rw [hFe, structBodyLoop_walk (ts ++ [Token.comma]) F i p res hq1
          (by
            intro t ht
            simp at ht
            rcases ht with ht | rfl
            · exact ⟨(hfree t ht).2.1, (hfree t ht).2.2.2⟩
            · exact ⟨fun h => Token.noConfusion h, fun h => Token.noConfusion h⟩)]
        have hq2 : tokens.drop (i + (ts ++ [Token.comma]).length) =
            fieldsTokens (g :: gs) ++ Token.rightBrace :: rest :=
          drop_add_of_drop_append (ts ++ [Token.comma]) hq1
        rw [ih F (i + (ts ++ [Token.comma]).length) p res hq2
          (fun u hu => hall u (by simp [hu])) hFb]
        have hrf : renderFields ((false, ts) :: g :: gs) = renderFields (g :: gs) := by
          simp [renderFields]
        have hnp : noPub ((false, ts) :: g :: gs) = noPub (g :: gs) := by
          simp [noPub]
        rw [hrf, hnp]
    | true =>
      cases fields' with
      | nil =>
        have hq1 : tokens.drop i =
            (Token.keyword Keyword.Pub :: ts) ++ (Token.rightBrace :: rest) := by
          simpa [fieldsTokens, fieldTokens] using hq
        have hi : tokens[i]? = some (Token.keyword Keyword.Pub) :=
          getElem?_of_drop_cons (by simpa using hq1)
        have hlen : tokens.length - i = ts.length + 2 + rest.length := by
          have h := drop_length_eq hq1
          simp [List.length_append] at h
          omega
        have hbound : ts.length + 2 ≤ tokens.length := by
          have := Nat.sub_le tokens.length i
          omega
        simp only [fieldsTokens, fieldTokens, if_pos rfl] at hf
        obtain ⟨F, hF2, hFe⟩ : ∃ F, 2 ≤ F ∧
            tokens.length + 2 = F + (Token.keyword Keyword.Pub :: ts).length :=
          ⟨tokens.length + 2 - (ts.length + 1), by omega, by simp; omega⟩
        have hpubwalk := pubFieldLoop_walk (Token.keyword Keyword.Pub :: ts) F i res hq1
          (by
            intro t ht
            simp at ht
            rcases ht with rfl | ht
            · exact ⟨fun h => Token.noConfusion h, fun h => Token.noConfusion h⟩
            · exact ⟨(hfree t ht).2.2.1, (hfree t ht).2.1⟩)
        obtain ⟨F', rfl⟩ : ∃ F', F = F' + 1 := ⟨F - 1, by omega⟩
        have hi3 : tokens[i + (Token.keyword Keyword.Pub :: ts).length]? =
            some Token.rightBrace :=
          getElem?_of_drop_cons (drop_add_of_drop_append _ hq1)
        have hpub : pubFieldLoop tokens (tokens.length + 2) i res =
            some (res ++ tokensText (Token.keyword Keyword.Pub :: ts),
              i + (Token.keyword Keyword.Pub :: ts).length) := by
          rw [hFe, hpubwalk, pubFieldLoop_at_brace hi3]
        obtain ⟨f', rfl⟩ : ∃ f', f = f' + 1 := ⟨f - 1, by simp at hf; omega⟩
        have hstep : structBodyLoop tokens (f' + 1) i p res =
            structBodyLoop tokens f' (i + (Token.keyword Keyword.Pub :: ts).length) false
              (res ++ tokensText (Token.keyword Keyword.Pub :: ts)) := by
          simp [structBodyLoop, hi, hpub]
        obtain ⟨f'', rfl⟩ : ∃ f'', f' = f'' + 1 := ⟨f' - 1, by simp at hf; omega⟩
        rw [hstep, structBodyLoop_at_brace hi3]
        simp [renderFields, noPub, String.append_assoc]
      | cons g gs =>
        have hq1 : tokens.drop i =
            (Token.keyword Keyword.Pub :: ts) ++
              (Token.comma :: (fieldsTokens (g :: gs) ++ Token.rightBrace :: rest)) := by
          simpa [fieldsTokens, fieldTokens, List.append_assoc] using hq
        have hi : tokens[i]? = some (Token.keyword Keyword.Pub) :=
          getElem?_of_drop_cons (by simpa using hq1)
        have hlen : tokens.length - i =
            ts.length + 2 + ((fieldsTokens (g :: gs)).length + 1 + rest.length) := by
          have h := drop_length_eq hq1
          simp [List.length_append] at h
          omega
        have hbound : ts.length + 2 ≤ tokens.length := by
          have := Nat.sub_le tokens.length i
          omega
        have hflen : (fieldsTokens ((true, ts) :: g :: gs)).length =
            ts.length + 2 + (fieldsTokens (g :: gs)).length := by
          simp [fieldsTokens, fieldTokens]
          omega
        rw [hflen] at hf
        obtain ⟨F, hF2, hFe⟩ : ∃ F, 2 ≤ F ∧
            tokens.length + 2 = F + (Token.keyword Keyword.Pub :: ts).length :=
          ⟨tokens.length + 2 - (ts.length + 1), by omega, by simp; omega⟩
        have hpubwalk := pubFieldLoop_walk (Token.keyword Keyword.Pub :: ts) F i res hq1
          (by
            intro t ht
            simp at ht
            rcases ht with rfl | ht
            · exact ⟨fun h => Token.noConfusion h, fun h => Token.noConfusion h⟩
            · exact ⟨(hfree t ht).2.2.1, (hfree t ht).2.1⟩)
        have hcomma : tokens[i + (Token.keyword Keyword.Pub :: ts).length]? =
            some Token.comma :=
          getElem?_of_drop_cons (drop_add_of_drop_append _ hq1)
        have hq2 : tokens.drop (i + (Token.keyword Keyword.Pub :: ts).length + 1) =
            fieldsTokens (g :: gs) ++ Token.rightBrace :: rest :=
          drop_succ_of_drop_cons (drop_add_of_drop_append _ hq1)
        obtain ⟨t', tl, htl, ht'⟩ := fieldsTokens_head_ne_brace g gs (hall g (by simp))
        have hnext : tokens[i + (Token.keyword Keyword.Pub :: ts).length + 1]? = some t' := by
          have hd : tokens.drop (i + (Token.keyword Keyword.Pub :: ts).length + 1) =
              t' :: (tl ++ Token.rightBrace :: rest) := by
            rw [hq2, htl]
            simp
          exact getElem?_of_drop_cons hd
        obtain ⟨F', rfl⟩ : ∃ F', F = F' + 1 := ⟨F - 1, by omega⟩
        have hpub : pubFieldLoop tokens (tokens.length + 2) i res =
            some (res ++ tokensText (Token.keyword Keyword.Pub :: ts) ++ ",\n",
              i + (Token.keyword Keyword.Pub :: ts).length + 1) := by
          rw [hFe, hpubwalk, pubFieldLoop_at_comma hcomma hnext ht']
        obtain ⟨f', rfl⟩ : ∃ f', f = f' + 1 := ⟨f - 1, by omega⟩
        have hstep : structBodyLoop tokens (f' + 1) i p res =
            structBodyLoop tokens f' (i + (Token.keyword Keyword.Pub :: ts).length + 1) false
              (res ++ tokensText (Token.keyword Keyword.Pub :: ts) ++ ",\n") := by
          simp [structBodyLoop, hi, hpub]
        rw [hstep, ih f' (i + (Token.keyword Keyword.Pub :: ts).length + 1) false
          (res ++ tokensText (Token.keyword Keyword.Pub :: ts) ++ ",\n") hq2
          (fun u hu => hall u (by simp [hu])) (by omega)]
        simp [renderFields, noPub, String.append_assoc]

theorem renderFields_noPub :
    ∀ fields : List SField, noPub fields = true → renderFields fields = "" := by
  intro fields
  induction fields with
  | nil => intro _; rfl
  | cons fl fields' ih =>
    intro hnp
    have hfl : fl.1 = false := by
      simp [noPub] at hnp
      simpa using hnp.1
    cases fields' with
    | nil => simp [renderFields, hfl]
    | cons g gs =>
      have hnp' : noPub (g :: gs) = true := by
        simp [noPub] at hnp ⊢
        exact hnp.2
      simp [renderFields, hfl, ih hnp']

/-! ## Claim C2 -/

/-- C2: For every struct declaration with a brace-delimited comma-separated
field list, the signature `struct_signature` emits is the header followed by
the public fields' tokens verbatim (each up to its separator or the
scope-close) and, exactly when no field is `Public`-qualified, the
private-fields redaction placeholder; in that all-private case no field
token is emitted (`renderFields fields = ""`), and when at least one field
is public the placeholder never appears. -/
theorem c2_struct_signature_private_redaction
    (tokens : List Token) (index : Nat) (header : List Token) (fields : List SField)
    (rest : List Token)
    (hdec : tokens.drop index =
      header ++ Token.leftBrace :: (fieldsTokens fields ++ Token.rightBrace :: rest))
    (hhead : ∀ t ∈ header, t ≠ Token.leftBrace)
    (hwf : ∀ fl ∈ fields, FieldWF fl) :
    struct_signature tokens index =
      some (tokensText header ++ "\x7b\n" ++ renderFields fields ++
        (if noPub fields then "/* private fields */" else "") ++ "\n\x7d") ∧
      (noPub fields = true → renderFields fields = "") := by
  refine ⟨?_, renderFields_noPub fields⟩
  have hlen : tokens.length - index =
      header.length + (fieldsTokens fields).length + 2 + rest.length := by
    have h := drop_length_eq hdec
    simp [List.length_append] at h
    omega
  have hbound : header.length + (fieldsTokens fields).length + 2 ≤ tokens.length := by
    have := Nat.sub_le tokens.length index
    omega
  have hhdr : structHeaderLoop tokens (tokens.length + 2) index "" =
      some ("" ++ tokensText header, index + header.length) :=
    structHeaderLoop_text header (tokens.length + 2) index "" hdec hhead (by omega)
  have hatbrace : tokens.drop (index + header.length) =
      Token.leftBrace :: (fieldsTokens fields ++ Token.rightBrace :: rest) :=
    drop_add_of_drop_append header hdec
  have hib : tokens[index + header.length]? = some Token.leftBrace :=
    getElem?_of_drop_cons hatbrace
  have hfieldsq : tokens.drop (index + header.length + 1) =
      fieldsTokens fields ++ Token.rightBrace :: rest :=
    drop_succ_of_drop_cons hatbrace
  have hstep : structBodyLoop tokens (tokens.length + 2) (index + header.length) true
      (("" ++ tokensText header) ++ "\x7b\n") =
      structBodyLoop tokens (tokens.length + 1) (index + header.length + 1) true
        (("" ++ tokensText header) ++ "\x7b\n") :=
    structBodyLoop_step_other hib (fun h => Token.noConfusion h) (fun h => Token.noConfusion h)
  have hbody := structBodyLoop_fields fields (tokens.length + 1)
    (index + header.length + 1) true (("" ++ tokensText header) ++ "\x7b\n")
    hfieldsq hwf (by omega)
  simp only [struct_signature, hhdr, hstep, hbody]
  simp [String.append_assoc]

/-- Witness for C2: `struct Point { pub x : i32 , y : i32 }` — the public
field is emitted verbatim, the private one is not, and no placeholder
appears. -/
theorem c2_struct_signature_private_redaction_witness :
    struct_signature
      [Token.keyword Keyword.Struct, Token.ident "Point", Token.leftBrace,
        Token.keyword Keyword.Pub, Token.ident "x", Token.other ":", Token.ident "i32",
        Token.comma, Token.ident "y", Token.other ":", Token.ident "i32",
        Token.rightBrace] 0 =
      some (tokensText [Token.keyword Keyword.Struct, Token.ident "Point"] ++ "\x7b\n" ++
        renderFields [(true, [Token.ident "x", Token.other ":", Token.ident "i32"]),
          (false, [Token.ident "y", Token.other ":", Token.ident "i32"])] ++
        (if noPub [(true, [Token.ident "x", Token.other ":", Token.ident "i32"]),
          (false, [Token.ident "y", Token.other ":", Token.ident "i32"])] then
            "/* private fields */" else "") ++ "\n\x7d") ∧
      (noPub [(true, [Token.ident "x", Token.other ":", Token.ident "i32"]),
          (false, [Token.ident "y", Token.other ":", Token.ident "i32"])] = true →
        renderFields [(true, [Token.ident "x", Token.other ":", Token.ident "i32"]),
          (false, [Token.ident "y", Token.other ":", Token.ident "i32"])] = "") :=
  c2_struct_signature_private_redaction
    [Token.keyword Keyword.Struct, Token.ident "Point", Token.leftBrace,
      Token.keyword Keyword.Pub, Token.ident "x", Token.other ":", Token.ident "i32",
      Token.comma, Token.ident "y", Token.other ":", Token.ident "i32",
      Token.rightBrace] 0
    [Token.keyword Keyword.Struct, Token.ident "Point"]
    [(true, [Token.ident "x", Token.other ":", Token.ident "i32"]),
      (false, [Token.ident "y", Token.other ":", Token.ident "i32"])]
    [] rfl (by decide) (by decide)

/-! ## Function signature lemmas -/

theorem fnSigLoop_step_other {tokens : List Token} {f i : Nat} {t : Token} {res : String}
    (hi : tokens[i]? = some t) (h1 : t ≠ Token.leftBrace) (h2 : t ≠ Token.semicolon) :
    fnSigLoop tokens (f+1) i res = fnSigLoop tokens f (i+1) (res ++ t.toString ++ " ") := by
  cases t <;> simp_all [fnSigLoop]

theorem fnSigLoop_text {tokens : List Token} :
    ∀ (cs : List Token) (f i : Nat) (res : String) {stop : Token} {rest : List Token},
      tokens.drop i = cs ++ stop :: rest →
      (∀ t ∈ cs, t ≠ Token.leftBrace ∧ t ≠ Token.semicolon) →
      (stop = Token.leftBrace ∨ stop = Token.semicolon) →
      cs.length + 1 ≤ f →
      fnSigLoop tokens f i res = some (res ++ tokensText cs) := by
  intro cs
  induction cs with
  | nil =>
    intro f i res stop rest hq _ hstop hf
    obtain ⟨f', rfl⟩ : ∃ f', f = f' + 1 := ⟨f - 1, by omega⟩
    have hi : tokens[i]? = some stop := getElem?_of_drop_cons (by simpa using hq)
    rcases hstop with rfl | rfl <;> simp [fnSigLoop, hi, tokensText]
  | cons t cs' ih =>
    intro f i res stop rest hq hfree hstop hf
    obtain ⟨f', rfl⟩ : ∃ f', f = f' + 1 := ⟨f - 1, by omega⟩
    have hi : tokens[i]? = some t := getElem?_of_drop_cons (by simpa using hq)
    have hq' : tokens.drop (i+1) = cs' ++ stop :: rest :=
      drop_succ_of_drop_cons (by simpa using hq)
    rw [fnSigLoop_step_other hi (hfree t (by simp)).1 (hfree t (by simp)).2]
    rw [ih f' (i+1) (res ++ t.toString ++ " ") hq' (fun u hu => hfree u (by simp [hu]))
      hstop (by simp at hf ⊢; omega)]
    have hstr : res ++ t.toString ++ " " ++ tokensText cs' = res ++ tokensText (t :: cs') := by
      simp [tokensText, String.append_assoc]
    rw [hstr]

theorem fn_signature_text {tokens : List Token} {i : Nat} {cs : List Token} {stop : Token}
    {rest : List Token}
    (hq : tokens.drop i = cs ++ stop :: rest)
    (hfree : ∀ t ∈ cs, t ≠ Token.leftBrace ∧ t ≠ Token.semicolon)
    (hstop : stop = Token.leftBrace ∨ stop = Token.semicolon) :
    fn_signature tokens i = some (tokensText cs) := by
  have hlen : tokens.length - i = cs.length + 1 + rest.length := by
    have h := drop_length_eq hq
    simp [List.length_append] at h
    omega
  have hbound : cs.length + 1 ≤ tokens.length + 2 := by
    have := Nat.sub_le tokens.length i
    omega
  have := fnSigLoop_text cs (tokens.length + 2) i "" hq hfree hstop hbound
  simpa [fn_signature] using this

/-! ## Trait header and method lemmas -/

theorem traitHeaderLoop_step_other {tokens : List Token} {f i : Nat} {t : Token} {sign : String}
    (hi : tokens[i+1]? = some t) (h1 : t ≠ Token.leftBrace) :
    traitHeaderLoop tokens (f+1) i sign =
      traitHeaderLoop tokens f (i+1) (sign ++ t.toString ++ " ") := by
  cases t <;> simp_all [traitHeaderLoop]

theorem traitHeaderLoop_text {tokens : List Token} :
    ∀ (cs : List Token) (f i : Nat) (sign : String) {rest : List Token},
      tokens.drop (i+1) = cs ++ Token.leftBrace :: rest →
      (∀ t ∈ cs, t ≠ Token.leftBrace) →
      cs.length + 1 ≤ f →
      traitHeaderLoop tokens f i sign = some (sign ++ tokensText cs, i + cs.length) := by
  intro cs
  induction cs with
  | nil =>
    intro f i sign rest hq _ hf
    obtain ⟨f', rfl⟩ : ∃ f', f = f' + 1 := ⟨f - 1, by omega⟩
    have hi : tokens[i+1]? = some Token.leftBrace := getElem?_of_drop_cons (by simpa using hq)
    simp [traitHeaderLoop, hi, tokensText]
  | cons t cs' ih =>
    intro f i sign rest hq hfree hf
    obtain ⟨f', rfl⟩ : ∃ f', f = f' + 1 := ⟨f - 1, by omega⟩
    have hi : tokens[i+1]? = some t := getElem?_of_drop_cons (by simpa using hq)
    have hq' : tokens.drop (i+1+1) = cs' ++ Token.leftBrace :: rest :=
      drop_succ_of_drop_cons (by simpa using hq)
    rw [traitHeaderLoop_step_other hi (hfree t (by simp))]
    rw [ih f' (i+1) (sign ++ t.toString ++ " ") hq' (fun u hu => hfree u (by simp [hu]))
      (by simp at hf ⊢; omega)]
    have hstr : sign ++ t.toString ++ " " ++ tokensText cs' = sign ++ tokensText (t :: cs') := by
      simp [tokensText, String.append_assoc]
    have hidx : (i+1) + cs'.length = i + (t :: cs').length := by simp; omega
    rw [hstr, hidx]

theorem provSkip_step_other {tokens : List Token} {f i d : Nat} {t : Token}
    (hi : tokens[i+2]? = some t) (h1 : t ≠ Token.leftBrace) (h2 : t ≠ Token.rightBrace)
    (hd : d ≠ 0) :
    provSkip tokens (f+1) i d = provSkip tokens f (i+1) d := by
  cases t <;> simp_all [provSkip]

theorem provSkip_balanced {tokens : List Token} :
    ∀ (q : List Token) (f i d : Nat) {rest : List Token},
      tokens.drop (i+2) = q ++ rest →
      (∀ n, n < q.length → closes (q.take n) < d + opens (q.take n)) →
      closes q = d + opens q →
      q.length < f →
      provSkip tokens f i d = some (i + q.length) := by
  intro q
  induction q with
  | nil =>
    intro f i d rest _ _ hnet hf
    have hd : d = 0 := by simpa [closes_nil, opens_nil] using hnet.symm
    obtain ⟨f', rfl⟩ : ∃ f', f = f' + 1 := ⟨f - 1, by omega⟩
    simp [provSkip, hd]
  | cons t q' ih =>
    intro f i d rest hq hlt hnet hf
    obtain ⟨f', rfl⟩ : ∃ f', f = f' + 1 := ⟨f - 1, by omega⟩
    have hd : d ≠ 0 := by
      have := hlt 0 (by simp)
      simp [closes_nil, opens_nil] at this
      omega
    have hi : tokens[i+2]? = some t := getElem?_of_drop_cons (by simpa using hq)
    have hq' : tokens.drop (i+1+2) = q' ++ rest := by
      have := drop_succ_of_drop_cons (show tokens.drop (i+2) = t :: (q' ++ rest) by simpa using hq)
      simpa [show i+2+1 = i+1+2 by omega] using this
    have hres : i + (t :: q').length = (i + 1) + q'.length := by simp; omega
    by_cases hl : t = Token.leftBrace
    · subst hl
      have hlt' : ∀ n, n < q'.length → closes (q'.take n) < (d+1) + opens (q'.take n) := by
        intro n hn
        have := hlt (n+1) (by simpa using Nat.succ_lt_succ hn)
        simp [List.take_succ_cons, closes_cons, opens_cons] at this
        omega
      have hnet' : closes q' = (d+1) + opens q' := by
        simp [closes_cons, opens_cons] at hnet
        omega
      rw [hres]
      simp only [provSkip, if_neg hd, hi]
      exact ih f' (i+1) (d+1) hq' hlt' hnet' (by simpa using hf)
    · by_cases hr : t = Token.rightBrace
      · subst hr
        have hlt' : ∀ n, n < q'.length → closes (q'.take n) < (d-1) + opens (q'.take n) := by
          intro n hn
          have := hlt (n+1) (by simpa using Nat.succ_lt_succ hn)
          simp [List.take_succ_cons, closes_cons, opens_cons] at this
          omega
        have hnet' : closes q' = (d-1) + opens q' := by
          simp [closes_cons, opens_cons] at hnet
          omega
        rw [hres]
        simp only [provSkip, if_neg hd, hi]
        exact ih f' (i+1) (d-1) hq' hlt' hnet' (by simpa using hf)
      · rw [hres, provSkip_step_other hi hl hr hd]
        have hlt' : ∀ n, n < q'.length → closes (q'.take n) < d + opens (q'.take n) := by
          intro n hn
          have := hlt (n+1) (by simpa using Nat.succ_lt_succ hn)
          simp [List.take_succ_cons, closes_cons, opens_cons, hl, hr] at this
          simpa using this
        have hnet' : closes q' = d + opens q' := by
          simp [closes_cons, opens_cons, hl, hr] at hnet
          simpa using hnet
        exact ih f' (i+1) d hq' hlt' hnet' (by simpa using hf)

theorem methodLoop_step_other {tokens : List Token} {f i : Nat} {t : Token} {sign : String}
    (hi : tokens[i+1]? = some t) (h1 : t ≠ Token.semicolon) (h2 : t ≠ Token.leftBrace) :
    methodLoop tokens (f+1) i sign = methodLoop tokens f (i+1) (sign ++ t.toString ++ " ") := by
  cases t <;> simp_all [methodLoop]

theorem methodLoop_walk {tokens : List Token} :
    ∀ (cs : List Token) (f i : Nat) (sign : String) {rest : List Token},
      tokens.drop (i+1) = cs ++ rest →
      (∀ t ∈ cs, t ≠ Token.semicolon ∧ t ≠ Token.leftBrace) →
      methodLoop tokens (f + cs.length) i sign =
        methodLoop tokens f (i + cs.length) (sign ++ tokensText cs) := by
  intro cs
  induction cs with
  | nil => intro f i sign rest _ _; simp [tokensText]
  | cons t cs' ih =>
    intro f i sign rest hq hfree
    have hi : tokens[i+1]? = some t := getElem?_of_drop_cons (by simpa using hq)
    have hq' : tokens.drop (i+1+1) = cs' ++ rest :=
      drop_succ_of_drop_cons (by simpa using hq)
    have hflen : f + (t :: cs').length = (f + cs'.length) + 1 := by simp; omega
    rw [hflen, methodLoop_step_other hi (hfree t (by simp)).1 (hfree t (by simp)).2]
    rw [ih f (i+1) (sign ++ t.toString ++ " ") hq' (fun u hu => hfree u (by simp [hu]))]
    have hstr : sign ++ t.toString ++ " " ++ tokensText cs' = sign ++ tokensText (t :: cs') := by
      simp [tokensText, String.append_assoc]
    have hidx : (i+1) + cs'.length = i + (t :: cs').length := by simp; omega
    rw [hstr, hidx]

theorem methodLoop_at_semi {tokens : List Token} {f i : Nat} {sign : String}
    (hi : tokens[i+1]? = some Token.semicolon) :
    methodLoop tokens (f+1) i sign = some (sign ++ ";\n", i, true) := by
  simp [methodLoop, hi]

theorem methodLoop_at_brace {tokens : List Token} {f i : Nat} {sign : String}
    {b rest : List Token}
    (hi : tokens[i+1]? = some Token.leftBrace)
    (hq : tokens.drop (i+2) = b ++ Token.rightBrace :: rest)
    (hbal1 : ∀ n, closes (b.take n) ≤ opens (b.take n))
    (hbal2 : opens b = closes b) :
    methodLoop tokens (f+1) i sign =
      some (sign ++ "\x7b ... \x7d\n", i + b.length + 2, false) := by
  have hlen : tokens.length - (i+2) = b.length + 1 + rest.length := by
    have h := drop_length_eq hq
    simp [List.length_append] at h
    omega
  have hbound : b.length + 1 < tokens.length + 2 := by
    have := Nat.sub_le tokens.length (i+2)
    omega
  have hprov : provSkip tokens (tokens.length + 2) i 1 = some (i + b.length + 1) := by
    have hq' : tokens.drop (i+2) = (b ++ [Token.rightBrace]) ++ rest := by
      simpa using hq
    have := provSkip_balanced (b ++ [Token.rightBrace]) (tokens.length + 2) i 1 hq'
      (prefix_lt_of_balanced hbal1) (net_of_balanced hbal2) (by simp; omega)
    simpa [show i + (b.length + 1) = i + b.length + 1 by omega] using this
  simp [methodLoop, hi, hprov]

/-! ## Totality of the comment associator at in-range indices -/

theorem doc_eq_some_of_lt {tokens : List Token} {n : Nat} (h : n < tokens.length) :
    ∃ d, doc tokens (n+1) = some d := by
  refine Option.ne_none_iff_exists'.mp ?_
  have hsome : tokens[n]? = some tokens[n] := List.getElem?_eq_getElem h
  cases htok : tokens[n] <;> (rw [htok] at hsome; simp [doc, hsome])

theorem additional_doc_eq_some_of_lt {tokens : List Token} {n : Nat} (h : n < tokens.length) :
    ∃ d, additional_doc tokens (n+1) = some d := by
  refine Option.ne_none_iff_exists'.mp ?_
  have hsome : tokens[n]? = some tokens[n] := List.getElem?_eq_getElem h
  cases htok : tokens[n] with
  | lineComment s sty =>
    rw [htok] at hsome
    cases sty with
    | none => simp [additional_doc, hsome]
    | some st => cases st <;> simp [additional_doc, hsome]
  | blockComment s sty =>
    rw [htok] at hsome
    cases sty with
    | none => simp [additional_doc, hsome]
    | some st => cases st <;> simp [additional_doc, hsome]
  | _ =>
    rw [htok] at hsome
    simp [additional_doc, hsome]

/-! ## Trait body loop characterization -/

theorem traitBodyLoop_step_other {tokens : List Token} {f i : Nat} {t : Token}
    {sign : String} {req prov : List Function}
    (hi : tokens[i+1]? = some t) (h1 : t ≠ Token.rightBrace)
    (h2 : t ≠ Token.keyword Keyword.Fn) :
    traitBodyLoop tokens (f+1) i sign req prov = traitBodyLoop tokens f (i+1) sign req prov := by
  cases t with
  | keyword k => cases k <;> simp_all [traitBodyLoop]
  | _ => simp_all [traitBodyLoop]

theorem encodeMethods_cons (m : MethodDecl) (ms : List MethodDecl) :
    encodeMethods (m :: ms) = encodeMethod m ++ encodeMethods ms := by
  simp [encodeMethods]

theorem length_filter_isReq (ms : List MethodDecl) :
    ((ms.filter fun m => m.isRequired).length + (ms.filter fun m => !m.isRequired).length) =
      ms.length := by
  induction ms with
  | nil => rfl
  | cons m ms ih =>
    by_cases h : m.isRequired = true <;> simp [List.filter_cons, h, ih] <;> omega

/-- Well-formedness of a trait-body method declaration: its signature tokens
contain neither a terminator nor a scope-open, and a provided body is
balanced. -/
def MethodWF (m : MethodDecl) : Prop :=
  (∀ t ∈ m.sig, t ≠ Token.semicolon ∧ t ≠ Token.leftBrace) ∧
  (match m.ending with
   | .required => True
   | .provided b => (∀ n, closes (b.take n) ≤ opens (b.take n)) ∧ opens b = closes b)

/-- The trait body loop over an encoded method list: each required method is
recorded with a terminator in the signature text, each provided method with
the body-elided placeholder and its body skipped; both lists collect the
methods of their kind in source order. -/
theorem traitBodyLoop_methods {tokens : List Token} :
    ∀ (ms : List MethodDecl) (f i : Nat) (sign : String) (req prov : List Function)
      {rest : List Token},
      tokens.drop (i+1) = encodeMethods ms ++ Token.rightBrace :: rest →
      (∀ m ∈ ms, MethodWF m) →
      (encodeMethods ms).length + 2 ≤ f →
      ∃ req' prov',
        traitBodyLoop tokens f i sign req prov =
          some (sign ++ methodsSigText ms ++ "\x7d", req ++ req', prov ++ prov') ∧
        req'.map functionView = (ms.filter fun m => m.isRequired).map methodView ∧
        prov'.map functionView = (ms.filter fun m => !m.isRequired).map methodView := by
  intro ms
  induction ms with
  | nil =>
    intro f i sign req prov rest hq _ hf
    obtain ⟨f', rfl⟩ : ∃ f', f = f' + 1 := ⟨f - 1, by omega⟩
    have hi : tokens[i+1]? = some Token.rightBrace := by
      apply getElem?_of_drop_cons
      simpa [encodeMethods] using hq
    refine ⟨[], [], ?_, by simp, by simp⟩
    simp [traitBodyLoop, hi, methodsSigText]
  | cons m ms' ih =>
    intro f i sign req prov rest hq hall hf
    obtain ⟨hsigfree, hendwf⟩ : MethodWF m := hall m (by simp)
    rcases m with ⟨nm, msig, ending⟩
    have hfree' : ∀ t ∈ Token.keyword Keyword.Fn :: Token.ident nm :: msig,
        t ≠ Token.leftBrace ∧ t ≠ Token.semicolon := by
      intro t ht
      simp at ht
      rcases ht with rfl | rfl | ht
      · exact ⟨fun h => Token.noConfusion h, fun h => Token.noConfusion h⟩
      · exact ⟨fun h => Token.noConfusion h, fun h => Token.noConfusion h⟩
      · exact ⟨(hsigfree t ht).2, (hsigfree t ht).1⟩
    have hfree'' : ∀ t ∈ Token.keyword Keyword.Fn :: Token.ident nm :: msig,
        t ≠ Token.semicolon ∧ t ≠ Token.leftBrace :=
      fun t ht => ⟨(hfree' t ht).2, (hfree' t ht).1⟩
    cases ending with
    | required =>
      have hqcs : tokens.drop (i+1) =
          (Token.keyword Keyword.Fn :: Token.ident nm :: msig) ++
            (Token.semicolon :: (encodeMethods ms' ++ Token.rightBrace :: rest)) := by
        rw [hq, encodeMethods_cons]
        simp [encodeMethod, List.append_assoc]
      have hfn : tokens[i+1]? = some (Token.keyword Keyword.Fn) :=
        getElem?_of_drop_cons (show tokens.drop (i+1) = Token.keyword Keyword.Fn ::
          (Token.ident nm :: msig ++
            (Token.semicolon :: (encodeMethods ms' ++ Token.rightBrace :: rest))) from hqcs)
      have hident : tokens[i+2]? = some (Token.ident nm) := by
        have hd1 : tokens.drop (i+1+1) = Token.ident nm ::
            (msig ++ (Token.semicolon :: (encodeMethods ms' ++ Token.rightBrace :: rest))) :=
          drop_succ_of_drop_cons (show tokens.drop (i+1) = Token.keyword Keyword.Fn ::
            (Token.ident nm :: msig ++
              (Token.semicolon :: (encodeMethods ms' ++ Token.rightBrace :: rest))) from hqcs)
        have he : i+1+1 = i+2 := by omega
        rw [he] at hd1
        exact getElem?_of_drop_cons hd1
      have hlq := drop_length_eq hqcs
      have hmb : msig.length + 2 ≤ tokens.length := by
        simp [List.length_append] at hlq
        have := Nat.sub_le tokens.length (i+1)
        omega
      have hilt : i < tokens.length := by
        simp [List.length_append] at hlq
        have := Nat.sub_le tokens.length (i+1)
        omega
      obtain ⟨d, hdoc⟩ := doc_eq_some_of_lt hilt
      have hfsig : fn_signature tokens (i+1) =
          some (tokensText (Token.keyword Keyword.Fn :: Token.ident nm :: msig)) :=
        fn_signature_text hqcs hfree' (Or.inr rfl)
      obtain ⟨F, hF1, hFe⟩ : ∃ F, 1 ≤ F ∧
          tokens.length + 2 = F + (Token.keyword Keyword.Fn :: Token.ident nm :: msig).length :=
        ⟨tokens.length - msig.length, by omega, by simp; omega⟩
      have hwalk := methodLoop_walk (Token.keyword Keyword.Fn :: Token.ident nm :: msig)
        F i sign hqcs hfree''
      have hsemi : tokens[(i + (Token.keyword Keyword.Fn :: Token.ident nm :: msig).length) + 1]? =
          some Token.semicolon := by
        have h2 := drop_add_of_drop_append
          (Token.keyword Keyword.Fn :: Token.ident nm :: msig) hqcs
        have he : (i+1) + (Token.keyword Keyword.Fn :: Token.ident nm :: msig).length =
            (i + (Token.keyword Keyword.Fn :: Token.ident nm :: msig).length) + 1 := by omega
        rw [he] at h2
        exact getElem?_of_drop_cons h2
      obtain ⟨F', rfl⟩ : ∃ F', F = F' + 1 := ⟨F - 1, by omega⟩
      have hmeth : methodLoop tokens (tokens.length + 2) i sign =
          some (sign ++ tokensText (Token.keyword Keyword.Fn :: Token.ident nm :: msig) ++ ";\n",
            i + (Token.keyword Keyword.Fn :: Token.ident nm :: msig).length, true) := by
        rw [hFe, hwalk, methodLoop_at_semi hsemi]
      have hflen : (encodeMethods (⟨nm, msig, MethodEnd.required⟩ :: ms')).length =
          msig.length + 3 + (encodeMethods ms').length := by
        rw [encodeMethods_cons]
        simp [encodeMethod]
        omega
      rw [hflen] at hf
      obtain ⟨f', rfl⟩ : ∃ f', f = f' + 1 := ⟨f - 1, by omega⟩
      have hstep : traitBodyLoop tokens (f'+1) i sign req prov =
          traitBodyLoop tokens f'
            (i + (Token.keyword Keyword.Fn :: Token.ident nm :: msig).length)
            (sign ++ tokensText (Token.keyword Keyword.Fn :: Token.ident nm :: msig) ++ ";\n")
            (req ++ [⟨nm, d,
              tokensText (Token.keyword Keyword.Fn :: Token.ident nm :: msig), true⟩]) prov := by
        simp [traitBodyLoop, hfn, hident, hdoc, hfsig, hmeth]
      obtain ⟨f'', rfl⟩ : ∃ f'', f' = f'' + 1 := ⟨f' - 1, by omega⟩
      have hstep2 := @traitBodyLoop_step_other tokens f''
        (i + (Token.keyword Keyword.Fn :: Token.ident nm :: msig).length) Token.semicolon
        (sign ++ tokensText (Token.keyword Keyword.Fn :: Token.ident nm :: msig) ++ ";\n")
        (req ++ [⟨nm, d,
          tokensText (Token.keyword Keyword.Fn :: Token.ident nm :: msig), true⟩])
        prov
        hsemi (fun h => Token.noConfusion h) (fun h => Token.noConfusion h)
      have hqnext : tokens.drop
          ((i + (Token.keyword Keyword.Fn :: Token.ident nm :: msig).length + 1) + 1) =
          encodeMethods ms' ++ Token.rightBrace :: rest := by
        have h2 := drop_add_of_drop_append
          ((Token.keyword Keyword.Fn :: Token.ident nm :: msig) ++ [Token.semicolon])
          (show tokens.drop (i+1) =
            ((Token.keyword Keyword.Fn :: Token.ident nm :: msig) ++ [Token.semicolon]) ++
              (encodeMethods ms' ++ Token.rightBrace :: rest) by
            rw [hqcs]; simp [List.append_assoc])
        have he : (i+1) + ((Token.keyword Keyword.Fn :: Token.ident nm :: msig) ++
            [Token.semicolon]).length =
            (i + (Token.keyword Keyword.Fn :: Token.ident nm :: msig).length + 1) + 1 := by
          simp
          omega
        rw [he] at h2
        exact h2
      obtain ⟨req'', prov'', hrec, hmr, hmp⟩ := ih f''
        (i + (Token.keyword Keyword.Fn :: Token.ident nm :: msig).length + 1)
        (sign ++ tokensText (Token.keyword Keyword.Fn :: Token.ident nm :: msig) ++ ";\n")
        (req ++ [⟨nm, d,
          tokensText (Token.keyword Keyword.Fn :: Token.ident nm :: msig), true⟩]) prov
        hqnext (fun u hu => hall u (by simp [hu])) (by omega)
      refine ⟨⟨nm, d,
        tokensText (Token.keyword Keyword.Fn :: Token.ident nm :: msig), true⟩ :: req'',
        prov'', ?_, ?_, ?_⟩
      · rw [hstep, hstep2, hrec]
        have hsg : sign ++ tokensText (Token.keyword Keyword.Fn :: Token.ident nm :: msig) ++
            ";\n" ++ methodsSigText ms' =
            sign ++ methodsSigText (⟨nm, msig, MethodEnd.required⟩ :: ms') := by
          simp [methodsSigText, methodSigText, MethodDecl.isRequired, String.append_assoc]
        rw [hsg]
        simp
      · simp [List.filter_cons, MethodDecl.isRequired, hmr, methodView, functionView,
          methodSigText]
      · simpa [List.filter_cons, MethodDecl.isRequired] using hmp
    | provided b =>
      obtain ⟨hbal1, hbal2⟩ : (∀ n, closes (b.take n) ≤ opens (b.take n)) ∧
          opens b = closes b := hendwf
      have hqcs : tokens.drop (i+1) =
          (Token.keyword Keyword.Fn :: Token.ident nm :: msig) ++
            (Token.leftBrace ::
              (b ++ Token.rightBrace :: (encodeMethods ms' ++ Token.rightBrace :: rest))) := by
        rw [hq, encodeMethods_cons]
        simp [encodeMethod, List.append_assoc]
      have hfn : tokens[i+1]? = some (Token.keyword Keyword.Fn) :=
        getElem?_of_drop_cons (show tokens.drop (i+1) = Token.keyword Keyword.Fn ::
          (Token.ident nm :: msig ++ (Token.leftBrace ::
            (b ++ Token.rightBrace :: (encodeMethods ms' ++ Token.rightBrace :: rest))))
          from hqcs)
      have hident : tokens[i+2]? = some (Token.ident nm) := by
        have hd1 : tokens.drop (i+1+1) = Token.ident nm ::
            (msig ++ (Token.leftBrace ::
              (b ++ Token.rightBrace :: (encodeMethods ms' ++ Token.rightBrace :: rest)))) :=
          drop_succ_of_drop_cons (show tokens.drop (i+1) = Token.keyword Keyword.Fn ::
            (Token.ident nm :: msig ++ (Token.leftBrace ::
              (b ++ Token.rightBrace :: (encodeMethods ms' ++ Token.rightBrace :: rest))))
            from hqcs)
        have he : i+1+1 = i+2 := by omega
        rw [he] at hd1
        exact getElem?_of_drop_cons hd1
      have hlq := drop_length_eq hqcs
      have hmb : msig.length + 2 ≤ tokens.length := by
        simp [List.length_append] at hlq
        have := Nat.sub_le tokens.length (i+1)
        omega
      have hilt : i < tokens.length := by
        simp [List.length_append] at hlq
        have := Nat.sub_le tokens.length (i+1)
        omega
      obtain ⟨d, hdoc⟩ := doc_eq_some_of_lt hilt
      have hfsig : fn_signature tokens (i+1) =
          some (tokensText (Token.keyword Keyword.Fn :: Token.ident nm :: msig)) :=
        fn_signature_text hqcs hfree' (Or.inl rfl)
      obtain ⟨F, hF1, hFe⟩ : ∃ F, 1 ≤ F ∧
          tokens.length + 2 = F + (Token.keyword Keyword.Fn :: Token.ident nm :: msig).length :=
        ⟨tokens.length - msig.length, by omega, by simp; omega⟩
      have hwalk := methodLoop_walk (Token.keyword Keyword.Fn :: Token.ident nm :: msig)
        F i sign hqcs hfree''
      have hbrq : tokens[(i + (Token.keyword Keyword.Fn :: Token.ident nm :: msig).length) + 1]? =
          some Token.leftBrace := by
        have h2 := drop_add_of_drop_append
          (Token.keyword Keyword.Fn :: Token.ident nm :: msig) hqcs
        have he : (i+1) + (Token.keyword Keyword.Fn :: Token.ident nm :: msig).length =
            (i + (Token.keyword Keyword.Fn :: Token.ident nm :: msig).length) + 1 := by omega
        rw [he] at h2
        exact getElem?_of_drop_cons h2
      have hbodyq : tokens.drop
          ((i + (Token.keyword Keyword.Fn :: Token.ident nm :: msig).length) + 2) =
          b ++ Token.rightBrace :: (encodeMethods ms' ++ Token.rightBrace :: rest) := by
        have h2 := drop_succ_of_drop_cons
          (drop_add_of_drop_append (Token.keyword Keyword.Fn :: Token.ident nm :: msig) hqcs)
        have he : (i+1) + (Token.keyword Keyword.Fn :: Token.ident nm :: msig).length + 1 =
            (i + (Token.keyword Keyword.Fn :: Token.ident nm :: msig).length) + 2 := by omega
        rw [he] at h2
        exact h2
      obtain ⟨F', rfl⟩ : ∃ F', F = F' + 1 := ⟨F - 1, by omega⟩
      have hmeth : methodLoop tokens (tokens.length + 2) i sign =
          some (sign ++ tokensText (Token.keyword Keyword.Fn :: Token.ident nm :: msig) ++
              "\x7b ... \x7d\n",
            (i + (Token.keyword Keyword.Fn :: Token.ident nm :: msig).length) + b.length + 2,
            false) := by
        rw [hFe, hwalk, methodLoop_at_brace hbrq hbodyq hbal1 hbal2]
      have hflen : (encodeMethods (⟨nm, msig, MethodEnd.provided b⟩ :: ms')).length =
          msig.length + 4 + b.length + (encodeMethods ms').length := by
        rw [encodeMethods_cons]
        simp [encodeMethod]
        omega
      rw [hflen] at hf
      obtain ⟨f', rfl⟩ : ∃ f', f = f' + 1 := ⟨f - 1, by omega⟩
      have hstep : traitBodyLoop tokens (f'+1) i sign req prov =
          traitBodyLoop tokens f'
            ((i + (Token.keyword Keyword.Fn :: Token.ident nm :: msig).length) + b.length + 2)
            (sign ++ tokensText (Token.keyword Keyword.Fn :: Token.ident nm :: msig) ++
              "\x7b ... \x7d\n")
            req
            (prov ++ [⟨nm, d,
              tokensText (Token.keyword Keyword.Fn :: Token.ident nm :: msig), true⟩]) := by
        simp [traitBodyLoop, hfn, hident, hdoc, hfsig, hmeth]
      have hqnext : tokens.drop
          (((i + (Token.keyword Keyword.Fn :: Token.ident nm :: msig).length) + b.length + 2) + 1) =
          encodeMethods ms' ++ Token.rightBrace :: rest := by
        have h2 := drop_add_of_drop_append
          ((Token.keyword Keyword.Fn :: Token.ident nm :: msig) ++
            (Token.leftBrace :: (b ++ [Token.rightBrace])))
          (show tokens.drop (i+1) =
            ((Token.keyword Keyword.Fn :: Token.ident nm :: msig) ++
              (Token.leftBrace :: (b ++ [Token.rightBrace]))) ++
              (encodeMethods ms' ++ Token.rightBrace :: rest) by
            rw [hqcs]; simp [List.append_assoc])
        have he : (i+1) + ((Token.keyword Keyword.Fn :: Token.ident nm :: msig) ++
            (Token.leftBrace :: (b ++ [Token.rightBrace]))).length =
            (((i + (Token.keyword Keyword.Fn :: Token.ident nm :: msig).length) + b.length + 2) + 1) := by
          simp
          omega
        rw [he] at h2
        exact h2
      obtain ⟨req'', prov'', hrec, hmr, hmp⟩ := ih f'
        ((i + (Token.keyword Keyword.Fn :: Token.ident nm :: msig).length) + b.length + 2)
        (sign ++ tokensText (Token.keyword Keyword.Fn :: Token.ident nm :: msig) ++
          "\x7b ... \x7d\n")
        req
        (prov ++ [⟨nm, d,
          tokensText (Token.keyword Keyword.Fn :: Token.ident nm :: msig), true⟩])
        hqnext (fun u hu => hall u (by simp [hu])) (by omega)
      refine ⟨req'', ⟨nm, d,
        tokensText (Token.keyword Keyword.Fn :: Token.ident nm :: msig), true⟩ :: prov'',
        ?_, ?_, ?_⟩
      · rw [hstep, hrec]
        have hsg : sign ++ tokensText (Token.keyword Keyword.Fn :: Token.ident nm :: msig) ++
            "\x7b ... \x7d\n" ++ methodsSigText ms' =
            sign ++ methodsSigText (⟨nm, msig, MethodEnd.provided b⟩ :: ms') := by
          simp [methodsSigText, methodSigText, MethodDecl.isRequired, String.append_assoc]
        rw [hsg]
        simp
      · simpa [List.filter_cons, MethodDecl.isRequired] using hmr
      · simp [List.filter_cons, MethodDecl.isRequired, hmp, methodView, functionView,
          methodSigText]

/-! ## Claim C1 -/

/-- C1: For every trait whose body is a list of method declarations each
ending in a statement terminator or in an opening scope with a balanced
body, `trait_info` classifies terminator-ended methods as required
(appending `;` to the trait signature text) and scope-opened methods as
provided (appending the body-elided placeholder `\x7b ... \x7d` and skipping
the real body); both lists preserve source order, carry `is_method = true`,
and their lengths sum to the number of function-keyword method declarations
in the trait body. -/
theorem c1_trait_method_classification
    (tokens : List Token) (index : Nat) (header rest : List Token) (ms : List MethodDecl)
    (hdec : tokens.drop (index+1) =
      header ++ Token.leftBrace :: (encodeMethods ms ++ Token.rightBrace :: rest))
    (hhead : ∀ t ∈ header, t ≠ Token.leftBrace)
    (hwf : ∀ m ∈ ms, MethodWF m) :
    ∃ req prov,
      trait_info tokens index =
        some (tokensText header ++ "\x7b\n" ++ methodsSigText ms ++ "\x7d", req, prov) ∧
      req.map functionView = (ms.filter fun m => m.isRequired).map methodView ∧
      prov.map functionView = (ms.filter fun m => !m.isRequired).map methodView ∧
      (∀ g ∈ req, g.is_method = true) ∧
      (∀ g ∈ prov, g.is_method = true) ∧
      req.length + prov.length = ms.length := by
  have hlen : tokens.length - (index+1) =
      header.length + 1 + (encodeMethods ms).length + 1 + rest.length := by
    have h := drop_length_eq hdec
    simp [List.length_append] at h
    omega
  have hsub := Nat.sub_le tokens.length (index+1)
  have hhdr : traitHeaderLoop tokens (tokens.length + 2) index "" =
      some ("" ++ tokensText header, index + header.length) :=
    traitHeaderLoop_text header (tokens.length + 2) index "" hdec hhead (by omega)
  have hbragdrop : tokens.drop ((index + header.length) + 1) =
      Token.leftBrace :: (encodeMethods ms ++ Token.rightBrace :: rest) := by
    have h2 := drop_add_of_drop_append header hdec
    have he : (index+1) + header.length = (index + header.length) + 1 := by omega
    rw [he] at h2
    exact h2
  have hbrace : tokens[(index + header.length) + 1]? = some Token.leftBrace :=
    getElem?_of_drop_cons hbragdrop
  have hmsdrop : tokens.drop (((index + header.length) + 1) + 1) =
      encodeMethods ms ++ Token.rightBrace :: rest :=
    drop_succ_of_drop_cons hbragdrop
  have hstep := @traitBodyLoop_step_other tokens (tokens.length + 1)
    (index + header.length) Token.leftBrace
    (("" ++ tokensText header) ++ "\x7b\n") [] []
    hbrace (fun h => Token.noConfusion h) (fun h => Token.noConfusion h)
  obtain ⟨req', prov', heq, hmr, hmp⟩ := traitBodyLoop_methods ms (tokens.length + 1)
    ((index + header.length) + 1) (("" ++ tokensText header) ++ "\x7b\n") [] []
    hmsdrop hwf (by omega)
  refine ⟨req', prov', ?_, hmr, hmp, ?_, ?_, ?_⟩
  · have : trait_info tokens index =
        traitBodyLoop tokens (tokens.length + 2) (index + header.length)
          (("" ++ tokensText header) ++ "\x7b\n") [] [] := by
      simp [trait_info, hhdr]
    rw [this, show tokens.length + 2 = (tokens.length + 1) + 1 from rfl, hstep, heq]
    simp [String.append_assoc]
  · intro g hg
    have hmem : functionView g ∈ (ms.filter fun m => m.isRequired).map methodView := by
      rw [← hmr]
      exact List.mem_map_of_mem functionView hg
    obtain ⟨m', _, hv⟩ := List.mem_map.mp hmem
    simpa [methodView, functionView] using (congrArg (fun p => p.2.2) hv).symm
  · intro g hg
    have hmem : functionView g ∈ (ms.filter fun m => !m.isRequired).map methodView := by
      rw [← hmp]
      exact List.mem_map_of_mem functionView hg
    obtain ⟨m', _, hv⟩ := List.mem_map.mp hmem
    simpa [methodView, functionView] using (congrArg (fun p => p.2.2) hv).symm
  · have h1 : req'.length = (ms.filter fun m => m.isRequired).length := by
      have := congrArg List.length hmr
      simpa using this
    have h2 : prov'.length = (ms.filter fun m => !m.isRequired).length := by
      have := congrArg List.length hmp
      simpa using this
    rw [h1, h2, length_filter_isReq]

/-- Witness for C1: `trait Shape { fn area ( ) ; fn name ( ... provided body ... ) }`
— one required and one provided method. -/
theorem c1_trait_method_classification_witness :
    ∃ req prov,
      trait_info [Token.keyword Keyword.Trait, Token.ident "Shape", Token.leftBrace,
          Token.keyword Keyword.Fn, Token.ident "area", Token.other "(", Token.other ")",
          Token.semicolon, Token.keyword Keyword.Fn, Token.ident "name", Token.leftBrace,
          Token.other "s", Token.rightBrace, Token.rightBrace] 0 =
        some (tokensText [Token.ident "Shape"] ++ "\x7b\n" ++
          methodsSigText
            [⟨"area", [Token.other "(", Token.other ")"], MethodEnd.required⟩,
              ⟨"name", [], MethodEnd.provided [Token.other "s"]⟩] ++ "\x7d", req, prov) ∧
      req.map functionView =
        (([⟨"area", [Token.other "(", Token.other ")"], MethodEnd.required⟩,
            ⟨"name", [], MethodEnd.provided [Token.other "s"]⟩] :
          List MethodDecl).filter fun m => m.isRequired).map methodView ∧
      prov.map functionView =
        (([⟨"area", [Token.other "(", Token.other ")"], MethodEnd.required⟩,
            ⟨"name", [], MethodEnd.provided [Token.other "s"]⟩] :
          List MethodDecl).filter fun m => !m.isRequired).map methodView ∧
      (∀ g ∈ req, g.is_method = true) ∧
      (∀ g ∈ prov, g.is_method = true) ∧
      req.length + prov.length =
        ([⟨"area", [Token.other "(", Token.other ")"], MethodEnd.required⟩,
          ⟨"name", [], MethodEnd.provided [Token.other "s"]⟩] :
          List MethodDecl).length :=
  c1_trait_method_classification
    [Token.keyword Keyword.Trait, Token.ident "Shape", Token.leftBrace,
      Token.keyword Keyword.Fn, Token.ident "area", Token.other "(", Token.other ")",
      Token.semicolon, Token.keyword Keyword.Fn, Token.ident "name", Token.leftBrace,
      Token.other "s", Token.rightBrace, Token.rightBrace] 0
    [Token.ident "Shape"] []
    [⟨"area", [Token.other "(", Token.other ")"], MethodEnd.required⟩,
      ⟨"name", [], MethodEnd.provided [Token.other "s"]⟩]
    rfl (by decide)
    (by
      intro m hm
      simp at hm
      rcases hm with rfl | rfl
      · exact ⟨by decide, trivial⟩
      · refine ⟨by simp, ?_, ?_⟩
        · intro n
          cases n with
          | zero => simp [closes_nil, opens_nil]
          | succ k =>
            cases k <;>
              simp [List.take_succ_cons, List.take_nil, closes_cons, opens_cons,
                closes_nil, opens_nil]
        · simp [opens_cons, closes_cons, opens_nil, closes_nil])
